import Mathlib

/-!
Shallow embedding of the plyer Library Catalog Engine
(src/main/library.ts together with the sqlite schema in src/main/db.ts).

The catalog database is modelled as lists of rows, one list per table,
restricted to the single "Library" playlist that the code ever uses
(openDatabase bootstraps exactly one playlist named "Library" and
LibraryManager only ever passes this.libraryPlaylistId to its queries, so
the playlist_id column is dropped from the membership rows).
AUTOINCREMENT primary keys are modelled with explicit counters.
-/

namespace Plyer

/-- A row of the files table. -/
structure FileRow where
  id : Nat
  path : String
  name : String
  ext : String
  durationMs : Int
  size : Int
  mtime : Int
  createdMs : Int
  rating : Int
  addedOn : Int
  lastPlayed : Option Int
  playCount : Int
  isMissing : Bool
deriving DecidableEq

/-- A row of the file_playlists table for the Library playlist
(UNIQUE(file_id, playlist_id), playlist_id fixed to the Library id). -/
structure MemberRow where
  fileId : Nat
  orderIndex : Int
deriving DecidableEq

/-- A row of the tags table (name UNIQUE). -/
structure TagRow where
  id : Nat
  name : String
deriving DecidableEq

/-- A row of the file_tags table (UNIQUE(file_id, tag_id)); the row keeps its
own AUTOINCREMENT id because toggleTag deletes by that id. -/
structure FileTagRow where
  id : Nat
  fileId : Nat
  tagId : Nat
deriving DecidableEq

/-- The whole catalog database for one root. -/
structure Catalog where
  files : List FileRow
  members : List MemberRow
  tags : List TagRow
  fileTags : List FileTagRow
  nextFileId : Nat
  nextTagId : Nat
  nextFileTagId : Nat
deriving DecidableEq

/-- Well-formedness invariants maintained by sqlite for every reachable
catalog: UNIQUE / PRIMARY KEY / FOREIGN KEY constraints of the schema and
freshness of the AUTOINCREMENT counters. -/
def WF (c : Catalog) : Prop :=
  (c.files.map (·.id)).Nodup ∧
  (c.files.map (·.path)).Nodup ∧
  (∀ r ∈ c.files, r.id < c.nextFileId) ∧
  (c.members.map (·.fileId)).Nodup ∧
  (∀ m ∈ c.members, m.fileId ∈ c.files.map (·.id)) ∧
  (c.tags.map (·.id)).Nodup ∧
  (c.tags.map (·.name)).Nodup ∧
  (∀ t ∈ c.tags, 1 ≤ t.id ∧ t.id < c.nextTagId) ∧
  ((c.fileTags.map (fun ft => (ft.fileId, ft.tagId))).Nodup) ∧
  (∀ ft ∈ c.fileTags, ft.fileId ∈ c.files.map (·.id) ∧
    ft.tagId ∈ c.tags.map (·.id) ∧ ft.id < c.nextFileTagId)

instance : DecidablePred WF := fun c => by
  unfold WF; infer_instance

/-! ### Playlist query engine: getPlaylist / buildPlaylistQueryParts / buildOrderBy -/

/-- Sort modes accepted by buildOrderBy; the default branch of the switch
statement is the playlist order. -/
inductive SortMode
  | playlist
  | filename
  | created
  | random
deriving DecidableEq

/-- PlaylistRequest from shared/types.ts as used by getPlaylist.
limit and offset are JS numbers that the code guards with a truthiness
test and a positivity test before Math.trunc, so missing values are
Option.none; seed keeps a rational value because buildOrderBy applies
Math.trunc to it. -/
structure PlaylistRequest where
  sort : SortMode
  ratingMin : Int
  tags : Option (List String)
  limit : Option Int
  offset : Option Int
  seed : Option ℚ
deriving DecidableEq

/-- The unique file_playlists row joined by
LEFT JOIN file_playlists fp ON fp.file_id = f.id AND fp.playlist_id = ?. -/
def memberOf (ms : List MemberRow) (fid : Nat) : Option MemberRow :=
  ms.find? (fun m => m.fileId == fid)

/-- LEFT JOIN tags t ON t.id = ft.tag_id for one file_tags row. -/
def tagNameOf (c : Catalog) (tid : Nat) : Option String :=
  (c.tags.find? (fun t => t.id == tid)).map (·.name)

/-- The tag names joined onto file fid by
LEFT JOIN file_tags ft ON ft.file_id = f.id, LEFT JOIN tags t ON t.id = ft.tag_id. -/
def fileTagNames (c : Catalog) (fid : Nat) : List String :=
  (c.fileTags.filter (fun ft => ft.fileId == fid)).filterMap (fun ft => tagNameOf c ft.tagId)

/-- COUNT(DISTINCT CASE WHEN t.name IN (placeholders) THEN t.name END)
over the group of rows of one file. -/
def matchingTagCount (names : List String) (req : List String) : Nat :=
  ((names.filter (fun n => req.contains n)).dedup).length

/-- The HAVING clause built by buildPlaylistQueryParts: absent when the tag
list is empty, otherwise the distinct-match count must equal the number of
requested tags. -/
def passesTagFilter (c : Catalog) (req : List String) (fid : Nat) : Prop :=
  if req.length = 0 then True else matchingTagCount (fileTagNames c fid) req = req.length

instance (c : Catalog) (req : List String) (fid : Nat) :
    Decidable (passesTagFilter c req fid) := by
  unfold passesTagFilter; infer_instance

/-- The rating filter AND f.rating >= ? added only when options.ratingMin > 0. -/
def passesRating (ratingMin : Int) (r : FileRow) : Prop :=
  if ratingMin > 0 then ratingMin ≤ r.rating else True

instance (ratingMin : Int) (r : FileRow) : Decidable (passesRating ratingMin r) := by
  unfold passesRating; infer_instance

/-- The filtered grouping shared by the total query and the page query:
WHERE f.is_missing = 0 plus rating filter, GROUP BY f.id, HAVING tag filter.
options.tags ?? [] is the getD. -/
def filteredFiles (c : Catalog) (q : PlaylistRequest) : List FileRow :=
  c.files.filter (fun r =>
    decide (r.isMissing = false) &&
    decide (passesRating q.ratingMin r) &&
    decide (passesTagFilter c (q.tags.getD []) r.id))

/-- One row of the page SELECT: the concrete columns the sort orders and the
claims read, with COALESCE(fp.order_index, 0). -/
structure QueryRow where
  id : Nat
  path : String
  name : String
  rating : Int
  createdMs : Int
  orderIndex : Int
deriving DecidableEq

/-- Builds one SELECT output row for file r. -/
def toQueryRow (c : Catalog) (r : FileRow) : QueryRow :=
  { id := r.id
    path := r.path
    name := r.name
    rating := r.rating
    createdMs := r.createdMs
    orderIndex := ((memberOf c.members r.id).map (·.orderIndex)).getD 0 }

/-- JS Math.trunc on a rational: integer division of numerator by
denominator truncated toward zero. -/
def jsTrunc (q : ℚ) : Int :=
  q.num.tdiv (q.den : Int)

/-- The effective random seed of buildOrderBy:
Math.abs(Math.trunc(options.seed ?? 1)) || 1. -/
def effSeed (s : Option ℚ) : Int :=
  let t := (jsTrunc (s.getD 1)).natAbs
  if t = 0 then 1 else (t : Int)

/-- The random sort key ((f.id * ?) % 2147483647); both operands are
nonnegative, where the sqlite remainder agrees with Int.emod. -/
def randKey (seed : Int) (a : QueryRow) : Int :=
  ((a.id : Int) * seed) % 2147483647

/-- ASCII case folding of the NOCASE collation, applied per character. -/
def foldChar (ch : Char) : Char :=
  if 'A' ≤ ch ∧ ch ≤ 'Z' then Char.ofNat (ch.toNat + 32) else ch

/-- Folds a name the way ORDER BY f.name COLLATE NOCASE compares it. -/
def foldNocase (s : String) : String :=
  String.mk (s.data.map foldChar)

/-- Lexicographic comparison by a primary and a secondary key, the shape of
every ORDER BY produced by buildOrderBy. -/
def lexLe {α : Type} {κ₁ κ₂ : Type} [LinearOrder κ₁] [LinearOrder κ₂]
    (f : α → κ₁) (g : α → κ₂) (a b : α) : Prop :=
  f a < f b ∨ (f a = f b ∧ g a ≤ g b)

instance {α : Type} {κ₁ κ₂ : Type} [LinearOrder κ₁] [LinearOrder κ₂]
    (f : α → κ₁) (g : α → κ₂) (a b : α) : Decidable (lexLe f g a b) := by
  unfold lexLe; infer_instance

/-- The ORDER BY of buildOrderBy for each sort mode; ties of the random key
carry no tie-break in the SQL, which the stable sort below resolves by
keeping table order. -/
def rowLe (sort : SortMode) (seed : Int) : QueryRow → QueryRow → Prop :=
  match sort with
  | .playlist => lexLe (fun a => a.orderIndex) (fun a => a.id)
  | .filename => lexLe (fun a => foldNocase a.name) (fun a => a.id)
  | .created => lexLe (fun a => -a.createdMs) (fun a => -(a.id : Int))
  | .random => lexLe (randKey seed) (fun _ => (0 : Nat))

instance (sort : SortMode) (seed : Int) : DecidableRel (rowLe sort seed) := fun a b => by
  cases sort <;> (unfold rowLe; infer_instance)

/-- The ordered, still unpaginated result rows of getPlaylist. -/
def sortedRows (c : Catalog) (q : PlaylistRequest) : List QueryRow :=
  ((filteredFiles c q).map (toQueryRow c)).insertionSort (rowLe q.sort (effSeed q.seed))

/-- options.limit && options.limit > 0 ? Math.trunc(options.limit) : null. -/
def effLimit (l : Option Int) : Option Int :=
  match l with
  | none => none
  | some v => if 0 < v then some v else none

/-- options.offset && options.offset > 0 ? Math.trunc(options.offset) : 0. -/
def effOffset (o : Option Int) : Nat :=
  match o with
  | none => 0
  | some v => if 0 < v then v.toNat else 0

/-- PlaylistResponse: items plus the total computed before pagination. -/
structure PlaylistResponse where
  items : List QueryRow
  total : Nat
deriving DecidableEq

/-- getPlaylist: total over the filtered grouping, then the page query with
LIMIT ? OFFSET ? appended only when the limit is positive. -/
def getPlaylist (c : Catalog) (q : PlaylistRequest) : PlaylistResponse :=
  { items :=
      match effLimit q.limit with
      | none => sortedRows c q
      | some l => ((sortedRows c q).drop (effOffset q.offset)).take l.toNat
    total := (filteredFiles c q).length }

/-! ### Reconciling scanner: LibraryManager.scanLibrary -/

/-- One entry of the snapshot produced by collectFiles. -/
structure ScannedFile where
  relativePath : String
  name : String
  ext : String
  size : Int
  mtime : Int
  createdMs : Int
deriving DecidableEq

/-- The counts returned by scanLibrary; removed is
existing.length - seenIds.size, an Int because the subtraction is on JS
numbers. -/
structure ScanCounts where
  added : Nat
  removed : Int
  updated : Nat
deriving DecidableEq

/-- The path keyed Map the scan builds once from the pre-scan SELECT and
never refreshes: id of the row with that path (Map.set lets a later row win)
together with its Library membership order index, none when the LEFT JOIN
found no file_playlists row. -/
def lookupExisting (c : Catalog) (p : String) : Option (Nat × Option Int) :=
  (c.files.reverse.find? (fun r => r.path == p)).map
    (fun r => (r.id, (memberOf c.members r.id).map (·.orderIndex)))

/-- SELECT MAX(order_index) FROM file_playlists WHERE playlist_id = ?,
with the ?? 0 fallback for the NULL of an empty table. -/
def maxOrderIndex (ms : List MemberRow) : Int :=
  ((ms.map (·.orderIndex)).max?).getD 0

/-- The UPDATE statement run for an already known row: disk derived fields
refreshed, is_missing cleared, everything else (path, rating, duration,
play history) untouched. -/
def applyUpdate (f : ScannedFile) (r : FileRow) : FileRow :=
  { r with name := f.name, ext := f.ext, size := f.size, mtime := f.mtime,
           createdMs := f.createdMs, isMissing := false }

/-- The INSERT statement for a newly discovered file: duration 0, rating 0,
is_missing 0, added_on the current time, AUTOINCREMENT id. -/
def newFileRow (f : ScannedFile) (fid : Nat) (now : Int) : FileRow :=
  { id := fid, path := f.relativePath, name := f.name, ext := f.ext,
    durationMs := 0, size := f.size, mtime := f.mtime, createdMs := f.createdMs,
    rating := 0, addedOn := now, lastPlayed := none, playCount := 0,
    isMissing := false }

/-- INSERT OR IGNORE INTO file_playlists: conflict safe on the
UNIQUE(file_id, playlist_id) pair. -/
def insertMember (ms : List MemberRow) (fid : Nat) (ord : Int) : List MemberRow :=
  if ms.any (fun m => m.fileId == fid) then ms else ms ++ [⟨fid, ord⟩]

/-- The JS Set of ids seen by the scan; add is idempotent. -/
def insertSeen (s : List Nat) (fid : Nat) : List Nat :=
  if fid ∈ s then s else fid :: s

/-- The loop state of the scan transaction. -/
structure ScanAcc where
  cat : Catalog
  nextOrder : Int
  added : Nat
  updated : Nat
  seen : List Nat
deriving DecidableEq

/-- One iteration of the for (const file of files) loop: the lookup goes
through the frozen pre-scan map, never the live table. -/
def scanStep (lookup : String → Option (Nat × Option Int)) (now : Int)
    (acc : ScanAcc) (f : ScannedFile) : ScanAcc :=
  match lookup f.relativePath with
  | none =>
      let fid := acc.cat.nextFileId
      { cat := { acc.cat with
          files := acc.cat.files ++ [newFileRow f fid now]
          members := insertMember acc.cat.members fid acc.nextOrder
          nextFileId := fid + 1 }
        nextOrder := acc.nextOrder + 1
        added := acc.added + 1
        updated := acc.updated
        seen := insertSeen acc.seen fid }
  | some (fid, oIdx) =>
      let files := acc.cat.files.map (fun r => if r.id = fid then applyUpdate f r else r)
      match oIdx with
      | none =>
          { cat := { acc.cat with
              files := files
              members := insertMember acc.cat.members fid acc.nextOrder }
            nextOrder := acc.nextOrder + 1
            added := acc.added
            updated := acc.updated + 1
            seen := insertSeen acc.seen fid }
      | some _ =>
          { cat := { acc.cat with files := files }
            nextOrder := acc.nextOrder
            added := acc.added
            updated := acc.updated + 1
            seen := insertSeen acc.seen fid }

/-- The whole reconciliation loop over the snapshot. -/
def scanGo (lookup : String → Option (Nat × Option Int)) (now : Int) :
    ScanAcc → List ScannedFile → ScanAcc
  | acc, [] => acc
  | acc, f :: fs => scanGo lookup now (scanStep lookup now acc f) fs

/-- Ids of pre-scan rows not revisited: the for (const row of existing) loop
that runs markMissing. -/
def markMissingIds (orig : List FileRow) (seen : List Nat) : List Nat :=
  (orig.filter (fun r => !(seen.contains r.id))).map (·.id)

/-- UPDATE files SET is_missing = 1 WHERE id = ?, run per unseen row. -/
def applyMarkMissing (files : List FileRow) (ids : List Nat) : List FileRow :=
  files.map (fun r => if ids.contains r.id then { r with isMissing := true } else r)

/-- The result of one scanLibrary call: the counts and the post-transaction
catalog. -/
structure ScanResult where
  counts : ScanCounts
  cat : Catalog
deriving DecidableEq

/-- LibraryManager.scanLibrary on an already collected snapshot: existing
rows loaded once, the reconciliation loop, then the mark-missing pass, all
inside one transaction. existing has one row per file because the LEFT JOIN
key (file_id, playlist_id) is UNIQUE. -/
def scanLibrary (c : Catalog) (snapshot : List ScannedFile) (now : Int) : ScanResult :=
  let lookup := lookupExisting c
  let acc0 : ScanAcc :=
    { cat := c, nextOrder := maxOrderIndex c.members + 1,
      added := 0, updated := 0, seen := [] }
  let acc := scanGo lookup now acc0 snapshot
  let missing := markMissingIds c.files acc.seen
  { counts := { added := acc.added,
                removed := (c.files.length : Int) - (acc.seen.length : Int),
                updated := acc.updated }
    cat := { acc.cat with files := applyMarkMissing acc.cat.files missing } }

/-! ### Mutation API -/

/-- UPDATE files SET rating = ? WHERE id = ?. -/
def setRating (c : Catalog) (fid : Nat) (rating : Int) : Catalog :=
  { c with files := c.files.map (fun r => if r.id = fid then { r with rating := rating } else r) }

/-- UPDATE files SET duration_ms = ? WHERE id = ?. -/
def setDuration (c : Catalog) (fid : Nat) (d : Int) : Catalog :=
  { c with files := c.files.map (fun r => if r.id = fid then { r with durationMs := d } else r) }

/-- UPDATE files SET last_played = ?, play_count = play_count + 1 WHERE id = ?. -/
def setLastPlayed (c : Catalog) (fid : Nat) (now : Int) : Catalog :=
  { c with files := c.files.map (fun r =>
      if r.id = fid then { r with lastPlayed := some now, playCount := r.playCount + 1 } else r) }

/-- Outcome of a statement sequence that can hit a sqlite constraint:
the catalog after the statements that did commit, and whether a statement
threw a SqliteError. -/
structure MutationOutcome where
  cat : Catalog
  threw : Bool
deriving DecidableEq

/-- Second half of toggleTag once the tag id is known: SELECT the
association, DELETE it by its own id when present, otherwise
INSERT OR IGNORE (file_id, tag_id). OR IGNORE does not cover FOREIGN KEY
constraints, and foreign_keys is ON, so inserting for an id absent from
files throws instead of being ignored. -/
def toggleTagAssoc (c : Catalog) (fid : Nat) (tid : Nat) : MutationOutcome :=
  match c.fileTags.find? (fun ft => ft.fileId == fid && ft.tagId == tid) with
  | some row =>
      { cat := { c with fileTags := c.fileTags.filter (fun ft => ft.id ≠ row.id) }
        threw := false }
  | none =>
      if (c.files.any (fun r => r.id == fid)) && (c.tags.any (fun t => t.id == tid)) then
        { cat := { c with
            fileTags := c.fileTags ++ [⟨c.nextFileTagId, fid, tid⟩]
            nextFileTagId := c.nextFileTagId + 1 }
          threw := false }
      else
        { cat := c, threw := true }

/-- LibraryManager.toggleTag: look the tag up by name; the JS truthiness
test !tagId also fires for a tag id 0, in which case the plain INSERT INTO
tags hits the UNIQUE(name) constraint and throws; otherwise a missing tag
row is created first (and stays committed, there is no transaction here). -/
def toggleTag (c : Catalog) (fid : Nat) (tag : String) : MutationOutcome :=
  match (c.tags.find? (fun t => t.name == tag)).map (·.id) with
  | some tid =>
      if tid = 0 then { cat := c, threw := true }
      else toggleTagAssoc c fid tid
  | none =>
      let c1 : Catalog :=
        { c with tags := c.tags ++ [⟨c.nextTagId, tag⟩], nextTagId := c.nextTagId + 1 }
      toggleTagAssoc c1 fid c.nextTagId

/-- One UPDATE of the saveOrder transaction:
UPDATE file_playlists SET order_index = ? WHERE file_id = ? AND playlist_id = ?. -/
def applyOrderUpdate (ms : List MemberRow) (fid : Nat) (idx : Int) : List MemberRow :=
  ms.map (fun m => if m.fileId = fid then { m with orderIndex := idx } else m)

/-- The ids.forEach((id, index) => update.run(index, id, playlistId)) loop. -/
def saveOrderGo (ms : List MemberRow) : List Nat → Int → List MemberRow
  | [], _ => ms
  | fid :: rest, i => saveOrderGo (applyOrderUpdate ms fid i) rest (i + 1)

/-- LibraryManager.saveOrder: rewrite the Library order indices to the list
positions, as one transaction. -/
def saveOrder (c : Catalog) (fileIds : List Nat) : Catalog :=
  { c with members := saveOrderGo c.members fileIds 0 }

/-! ### Filesystem walk: collectFiles -/

/-- A directory entry as readdirSync(current, withFileTypes) reports it.
A dir whose entries are none is a directory readdirSync will fail on
(permission error); entries are not followed through symlinks, so a symlink
(broken or not) is an other entry with isDirectory and isFile both false. -/
inductive FsNode
  | file (name : String) (size : Int) (mtime : Int) (birth : Int)
  | dir (name : String) (entries : Option (List FsNode))
  | other (name : String)

mutual

/-- Size measure of one node for the termination of the walk. -/
def nodeWeight : FsNode → Nat
  | .file _ _ _ _ => 1
  | .other _ => 1
  | .dir _ entries => 1 + entriesWeight entries

/-- Size measure of a readdir result. -/
def entriesWeight : Option (List FsNode) → Nat
  | none => 0
  | some l => listWeight l

/-- Size measure of a list of entries. -/
def listWeight : List FsNode → Nat
  | [] => 0
  | a :: t => nodeWeight a + listWeight t

end

/-- path.extname: suffix from the last dot of the basename, empty when there
is no dot or the dot leads. -/
def extname (s : String) : String :=
  match s.data.reverse.findIdx? (fun ch => ch == '.') with
  | none => ""
  | some k =>
      let pos := s.data.length - 1 - k
      if pos = 0 then "" else String.mk (s.data.drop pos)

/-- The VIDEO_EXTENSIONS set. -/
def videoExtensions : List String := [".mov", ".avi", ".mp4", ".webm", ".mkv"]

/-- isVideoFile: extension membership after lowercasing. -/
def isVideoFile (name : String) : Bool :=
  videoExtensions.contains (foldNocase (extname name))

/-- One pending stack element of the walk: the root relative directory path
in segments, and what readdirSync will report for it. -/
def StackEntry : Type := List String × Option (List FsNode)

/-- Weight of one stack element. -/
def entryWeight (e : StackEntry) : Nat := 1 + entriesWeight e.2

/-- Weight of the whole stack. -/
def stackWeight : List StackEntry → Nat
  | [] => 0
  | e :: s => entryWeight e + stackWeight s

/-- The subdirectories one directory pass pushes, in entry order, skipping
the reserved .cache name. -/
def dirChildren (base : List String) : List FsNode → List StackEntry
  | [] => []
  | .dir name entries :: t =>
      if name == ".cache" then dirChildren base t
      else (base ++ [name], entries) :: dirChildren base t
  | .file _ _ _ _ :: t => dirChildren base t
  | .other _ :: t => dirChildren base t

/-- The video files one directory pass records, in entry order: .cache
skipped, non file entries skipped, extension filtered, stat fields copied. -/
def fileResults (base : List String) : List FsNode → List ScannedFile
  | [] => []
  | .file name size mtime birth :: t =>
      if name == ".cache" then fileResults base t
      else if isVideoFile name then
        { relativePath := String.intercalate "/" (base ++ [name]), name := name,
          ext := foldNocase (extname name), size := size, mtime := mtime,
          createdMs := birth } :: fileResults base t
      else fileResults base t
  | .dir _ _ :: t => fileResults base t
  | .other _ :: t => fileResults base t

/-- The while (stack.length) loop of collectFiles. JS pops from the array
end, so the head of this list is the top; pushing the subdirectories in
entry order makes them pop in reverse order. readdirSync is not wrapped in
any try block, so a failing directory aborts the whole walk with the
exception. -/
def walkGo : List StackEntry → List ScannedFile → Except Unit (List ScannedFile)
  | [], acc => .ok acc
  | (_, none) :: _, _ => .error ()
  | (base, some l) :: rest, acc =>
      walkGo ((dirChildren base l).reverse ++ rest) (acc ++ fileResults base l)
termination_by s _ => stackWeight s
decreasing_by
  have happ : ∀ (xs ys : List StackEntry),
      stackWeight (xs ++ ys) = stackWeight xs + stackWeight ys := by
    intro xs ys
    induction xs with
    | nil => simp [stackWeight]
    | cons e s ih => simp [stackWeight, ih]; omega
  have hrev : ∀ (xs : List StackEntry), stackWeight xs.reverse = stackWeight xs := by
    intro xs
    induction xs with
    | nil => rfl
    | cons e s ih => simp [stackWeight, List.reverse_cons, happ, ih]; omega
  have hcw : ∀ (b : List String) (l : List FsNode),
      stackWeight (dirChildren b l) ≤ listWeight l := by
    intro b l
    induction l with
    | nil => simp [dirChildren, stackWeight, listWeight]
    | cons a t ih =>
        cases a with
        | file name size mtime birth =>
            simp only [dirChildren, listWeight, nodeWeight]
            omega
        | other name =>
            simp only [dirChildren, listWeight, nodeWeight]
            omega
        | dir name entries =>
            by_cases hname : name == ".cache"
            · simp only [dirChildren, listWeight, nodeWeight, if_pos hname]
              omega
            · simp only [dirChildren, listWeight, nodeWeight, if_neg hname, stackWeight,
                entryWeight]
              omega
  have hl := hcw base l
  have h2 := happ (dirChildren base l).reverse rest
  have h3 := hrev (dirChildren base l)
  simp only [stackWeight, entryWeight, entriesWeight]
  omega

/-- collectFiles(root): walk the tree from the root directory. -/
def collectFiles (rootEntries : Option (List FsNode)) : Except Unit (List ScannedFile) :=
  walkGo [([], rootEntries)] []

/-! ### Concrete catalogs and trees used to instantiate the theorems -/

/-- A small catalog: file 1 tagged a, b, c; file 2 tagged a with rating 3;
file 3 rated 5; file 4 flagged missing. -/
def sampleCat : Catalog :=
  { files :=
      [ { id := 1, path := "a.mp4", name := "a.mp4", ext := ".mp4", durationMs := 0, size := 10,
          mtime := 5, createdMs := 3, rating := 0, addedOn := 0, lastPlayed := none,
          playCount := 0, isMissing := false },
        { id := 2, path := "b.mp4", name := "b.mp4", ext := ".mp4", durationMs := 0, size := 11,
          mtime := 6, createdMs := 4, rating := 3, addedOn := 0, lastPlayed := none,
          playCount := 0, isMissing := false },
        { id := 3, path := "c.mp4", name := "c.mp4", ext := ".mp4", durationMs := 0, size := 12,
          mtime := 7, createdMs := 5, rating := 5, addedOn := 0, lastPlayed := none,
          playCount := 0, isMissing := false },
        { id := 4, path := "gone.mp4", name := "gone.mp4", ext := ".mp4", durationMs := 0,
          size := 13, mtime := 8, createdMs := 6, rating := 1, addedOn := 0, lastPlayed := none,
          playCount := 0, isMissing := true } ]
    members := [⟨1, 1⟩, ⟨2, 2⟩, ⟨3, 3⟩, ⟨4, 4⟩]
    tags := [⟨1, "a"⟩, ⟨2, "b"⟩, ⟨3, "c"⟩]
    fileTags := [⟨1, 1, 1⟩, ⟨2, 1, 2⟩, ⟨3, 1, 3⟩, ⟨4, 2, 1⟩]
    nextFileId := 5
    nextTagId := 4
    nextFileTagId := 5 }

/-- A catalog holding one row whose file is no longer on disk. -/
def staleCat : Catalog :=
  { files :=
      [ { id := 1, path := "gone.mp4", name := "gone.mp4", ext := ".mp4", durationMs := 0,
          size := 1, mtime := 1, createdMs := 1, rating := 2, addedOn := 0, lastPlayed := none,
          playCount := 0, isMissing := false } ]
    members := [⟨1, 1⟩]
    tags := []
    fileTags := []
    nextFileId := 2
    nextTagId := 1
    nextFileTagId := 1 }

/-- A catalog whose Library members are exactly the files 2, 3, 4 but which
also holds a non missing file 1 without any membership row. -/
def strayCat : Catalog :=
  { files :=
      [ { id := 1, path := "s.mp4", name := "s.mp4", ext := ".mp4", durationMs := 0, size := 1,
          mtime := 1, createdMs := 1, rating := 0, addedOn := 0, lastPlayed := none,
          playCount := 0, isMissing := false },
        { id := 2, path := "f1.mp4", name := "f1.mp4", ext := ".mp4", durationMs := 0, size := 2,
          mtime := 2, createdMs := 2, rating := 0, addedOn := 0, lastPlayed := none,
          playCount := 0, isMissing := false },
        { id := 3, path := "f2.mp4", name := "f2.mp4", ext := ".mp4", durationMs := 0, size := 3,
          mtime := 3, createdMs := 3, rating := 0, addedOn := 0, lastPlayed := none,
          playCount := 0, isMissing := false },
        { id := 4, path := "f3.mp4", name := "f3.mp4", ext := ".mp4", durationMs := 0, size := 4,
          mtime := 4, createdMs := 4, rating := 0, addedOn := 0, lastPlayed := none,
          playCount := 0, isMissing := false } ]
    members := [⟨2, 1⟩, ⟨3, 2⟩, ⟨4, 3⟩]
    tags := []
    fileTags := []
    nextFileId := 5
    nextTagId := 1
    nextFileTagId := 1 }

/-- A catalog whose members are exactly the files 2, 3, 4 and whose non
missing files are exactly those members. -/
def denseCat : Catalog :=
  { files :=
      [ { id := 2, path := "f1.mp4", name := "f1.mp4", ext := ".mp4", durationMs := 0, size := 2,
          mtime := 2, createdMs := 2, rating := 0, addedOn := 0, lastPlayed := none,
          playCount := 0, isMissing := false },
        { id := 3, path := "f2.mp4", name := "f2.mp4", ext := ".mp4", durationMs := 0, size := 3,
          mtime := 3, createdMs := 3, rating := 0, addedOn := 0, lastPlayed := none,
          playCount := 0, isMissing := false },
        { id := 4, path := "f3.mp4", name := "f3.mp4", ext := ".mp4", durationMs := 0, size := 4,
          mtime := 4, createdMs := 4, rating := 0, addedOn := 0, lastPlayed := none,
          playCount := 0, isMissing := false } ]
    members := [⟨2, 1⟩, ⟨3, 2⟩, ⟨4, 3⟩]
    tags := []
    fileTags := []
    nextFileId := 5
    nextTagId := 1
    nextFileTagId := 1 }

/-- A snapshot matching the files of sampleCat apart from the missing one. -/
def sampleSnapshot : List ScannedFile :=
  [ { relativePath := "a.mp4", name := "a.mp4", ext := ".mp4", size := 10, mtime := 5,
      createdMs := 3 },
    { relativePath := "b.mp4", name := "b.mp4", ext := ".mp4", size := 11, mtime := 6,
      createdMs := 4 },
    { relativePath := "c.mp4", name := "c.mp4", ext := ".mp4", size := 12, mtime := 7,
      createdMs := 5 } ]

/-- A catalog with no rows at all. -/
def emptyCat : Catalog :=
  { files := [], members := [], tags := [], fileTags := [],
    nextFileId := 1, nextTagId := 1, nextFileTagId := 1 }

/-- A directory tree with one unreadable subdirectory next to two good
video files. -/
def badTree : Option (List FsNode) :=
  some [FsNode.file "ok.mp4" 7 8 9, FsNode.dir "locked" none, FsNode.file "later.mp4" 1 2 3]

/-! ### Helper lemmas about the ordering relations -/

theorem lexLe_total {α : Type} {κ₁ κ₂ : Type} [LinearOrder κ₁] [LinearOrder κ₂]
    (f : α → κ₁) (g : α → κ₂) (a b : α) : lexLe f g a b ∨ lexLe f g b a := by
  rcases lt_trichotomy (f a) (f b) with h | h | h
  · exact Or.inl (Or.inl h)
  · rcases le_total (g a) (g b) with h' | h'
    · exact Or.inl (Or.inr ⟨h, h'⟩)
    · exact Or.inr (Or.inr ⟨h.symm, h'⟩)
  · exact Or.inr (Or.inl h)

theorem lexLe_trans {α : Type} {κ₁ κ₂ : Type} [LinearOrder κ₁] [LinearOrder κ₂]
    (f : α → κ₁) (g : α → κ₂) (a b c : α)
    (h₁ : lexLe f g a b) (h₂ : lexLe f g b c) : lexLe f g a c := by
  rcases h₁ with h₁ | ⟨he₁, hg₁⟩
  · rcases h₂ with h₂ | ⟨he₂, _⟩
    · exact Or.inl (h₁.trans h₂)
    · exact Or.inl (he₂ ▸ h₁)
  · rcases h₂ with h₂ | ⟨he₂, hg₂⟩
    · exact Or.inl (he₁ ▸ h₂)
    · exact Or.inr ⟨he₁.trans he₂, hg₁.trans hg₂⟩

theorem lexLe_antisymm_keys {α : Type} {κ₁ κ₂ : Type} [LinearOrder κ₁] [LinearOrder κ₂]
    (f : α → κ₁) (g : α → κ₂) (a b : α)
    (h₁ : lexLe f g a b) (h₂ : lexLe f g b a) : f a = f b ∧ g a = g b := by
  rcases h₁ with h₁ | ⟨he₁, hg₁⟩
  · rcases h₂ with h₂ | ⟨he₂, _⟩
    · exact absurd (h₁.trans h₂) (lt_irrefl _)
    · exact absurd h₁ (he₂ ▸ lt_irrefl _)
  · rcases h₂ with h₂ | ⟨he₂, hg₂⟩
    · exact absurd h₂ (he₁ ▸ lt_irrefl _)
    · exact ⟨he₁, le_antisymm hg₁ hg₂⟩

theorem rowLe_total (sort : SortMode) (seed : Int) (a b : QueryRow) :
    rowLe sort seed a b ∨ rowLe sort seed b a := by
  cases sort <;> simp only [rowLe] <;> exact lexLe_total _ _ a b

theorem rowLe_trans (sort : SortMode) (seed : Int) (a b c : QueryRow)
    (h₁ : rowLe sort seed a b) (h₂ : rowLe sort seed b c) : rowLe sort seed a c := by
  cases sort <;> simp only [rowLe] at h₁ h₂ ⊢ <;> exact lexLe_trans _ _ a b c h₁ h₂

/-- A sorted permutation of a sorted list is that list, when the order is
antisymmetric on the elements involved. -/
theorem perm_eq_of_sorted {α : Type} (le : α → α → Prop) :
    ∀ (l₁ l₂ : List α), l₁.Perm l₂ → l₁.Pairwise le → l₂.Pairwise le →
      (∀ a ∈ l₁, ∀ b ∈ l₁, le a b → le b a → a = b) → l₁ = l₂ := by
  intro l₁
  induction l₁ with
  | nil =>
      intro l₂ hp _ _ _
      exact hp.nil_eq
  | cons a t ih =>
      intro l₂ hp h₁ h₂ hanti
      cases l₂ with
      | nil => exact absurd hp.symm (by simp)
      | cons b t₂ =>
          have hab : a = b := by
            have hamem : a ∈ b :: t₂ := hp.mem_iff.mp (List.mem_cons_self a t)
            have hbmem : b ∈ a :: t := hp.symm.mem_iff.mp (List.mem_cons_self b t₂)
            rcases List.mem_cons.mp hamem with h | h
            · exact h
            · rcases List.mem_cons.mp hbmem with h' | h'
              · exact h'.symm
              · have l1 : le a b := (List.pairwise_cons.mp h₁).1 b h'
                have l2 : le b a := (List.pairwise_cons.mp h₂).1 a h
                exact hanti a (List.mem_cons_self a t) b (List.mem_cons_of_mem a h') l1 l2
          subst hab
          have hp' : t.Perm t₂ := hp.cons_inv
          have ht := ih t₂ hp' (List.pairwise_cons.mp h₁).2 (List.pairwise_cons.mp h₂).2
            (fun x hx y hy => hanti x (List.mem_cons_of_mem a hx) y (List.mem_cons_of_mem a hy))
          rw [ht]

/-! ### Helper lemmas about the tag filter -/

theorem matchingTagCount_eq_iff (names T : List String) (hT : T.Nodup) :
    matchingTagCount names T = T.length ↔ ∀ t ∈ T, t ∈ names := by
  classical
  unfold matchingTagCount
  rw [← List.card_toFinset, List.toFinset_filter]
  have hfe : Finset.filter (fun a => (T.contains a) = true) names.toFinset =
      names.toFinset ∩ T.toFinset := by
    rw [← Finset.filter_mem_eq_inter]
    apply Finset.filter_congr
    intro x _
    simp [List.contains, List.elem_iff, List.mem_toFinset]
  rw [hfe]
  have hTcard : T.toFinset.card = T.length := List.toFinset_card_of_nodup hT
  constructor
  · intro h
    have hsub : names.toFinset ∩ T.toFinset ⊆ T.toFinset := Finset.inter_subset_right
    have heq : names.toFinset ∩ T.toFinset = T.toFinset :=
      Finset.eq_of_subset_of_card_le hsub (by rw [hTcard, h])
    intro t ht
    have hmem : t ∈ names.toFinset ∩ T.toFinset := by
      rw [heq]
      exact List.mem_toFinset.mpr ht
    exact List.mem_toFinset.mp (Finset.mem_inter.mp hmem).1
  · intro h
    have heq : names.toFinset ∩ T.toFinset = T.toFinset := by
      apply Finset.inter_eq_right.mpr
      intro x hx
      exact List.mem_toFinset.mpr (h x (List.mem_toFinset.mp hx))
    rw [heq, hTcard]

theorem passesTagFilter_iff (c : Catalog) (T : List String) (hT : T.Nodup) (fid : Nat) :
    passesTagFilter c T fid ↔ ∀ t ∈ T, t ∈ fileTagNames c fid := by
  unfold passesTagFilter
  by_cases h : T.length = 0
  · rw [if_pos h]
    rw [List.length_eq_zero] at h
    subst h
    simp
  · rw [if_neg h]
    exact matchingTagCount_eq_iff _ _ hT

/-! ### C2, C4, C9: pagination and totals -/

/-- C2: for a fixed catalog, filter, sort mode and seed, the items of the
page offset 0 limit 2 followed by the items of the page offset 2 limit 2
are exactly the items of the page offset 0 limit 4. -/
theorem pagination_concat (c : Catalog) (q : PlaylistRequest) :
    (getPlaylist c { q with limit := some 2, offset := some 0 }).items ++
      (getPlaylist c { q with limit := some 2, offset := some 2 }).items =
      (getPlaylist c { q with limit := some 4, offset := some 0 }).items := by
  have h := List.take_add (sortedRows c q) 2 2
  norm_num at h
  show ((sortedRows c q).drop 0).take 2 ++ ((sortedRows c q).drop 2).take 2 =
      ((sortedRows c q).drop 0).take 4
  rw [List.drop_zero]
  exact h.symm

/-- C4: the total of any playlist request equals the number of items the
same request returns with the limit removed, and the total never depends on
the requested page. -/
theorem total_matches_filter (c : Catalog) (q : PlaylistRequest) (l o : Option Int) :
    (getPlaylist c q).total = (getPlaylist c { q with limit := none, offset := none }).items.length ∧
      (getPlaylist c { q with limit := l, offset := o }).total = (getPlaylist c q).total := by
  constructor
  · show (filteredFiles c q).length =
        (sortedRows c { q with limit := none, offset := none }).length
    unfold sortedRows
    rw [List.length_insertionSort, List.length_map]
    rfl
  · rfl

/-- C9: a request without a positive limit returns the complete filtered
sequence; the offset is ignored entirely and the length equals the total. -/
theorem no_limit_ignores_offset (c : Catalog) (q : PlaylistRequest)
    (h : ∀ v, q.limit = some v → v ≤ 0) :
    (getPlaylist c q).items = (getPlaylist c { q with offset := some 0 }).items ∧
      (getPlaylist c q).items = sortedRows c q ∧
      (getPlaylist c q).items.length = (getPlaylist c q).total := by
  have hl : effLimit q.limit = none := by
    cases hq : q.limit with
    | none => rfl
    | some v =>
        have hv := h v hq
        simp only [effLimit]
        rw [if_neg (by omega)]
  have hitems : (getPlaylist c q).items = sortedRows c q := by
    show (match effLimit q.limit with
      | none => sortedRows c q
      | some l => ((sortedRows c q).drop (effOffset q.offset)).take l.toNat) = sortedRows c q
    rw [hl]
  refine ⟨?_, hitems, ?_⟩
  · have hl' : effLimit ({ q with offset := some 0 } : PlaylistRequest).limit = none := hl
    have hitems' : (getPlaylist c { q with offset := some 0 }).items =
        sortedRows c { q with offset := some 0 } := by
      show (match effLimit ({ q with offset := some 0 } : PlaylistRequest).limit with
        | none => sortedRows c { q with offset := some 0 }
        | some l => ((sortedRows c { q with offset := some 0 }).drop
            (effOffset ({ q with offset := some 0 } : PlaylistRequest).offset)).take l.toNat) =
          sortedRows c { q with offset := some 0 }
      rw [hl']
    rw [hitems, hitems']
    rfl
  · rw [hitems]
    show (sortedRows c q).length = (filteredFiles c q).length
    unfold sortedRows
    rw [List.length_insertionSort, List.length_map]

/-! ### C1: the AND tag filter -/

/-- C1: with no rating filter and no limit, a file of the catalog
contributes an item if and only if it is not missing and carries every
requested tag name; in particular an empty tag list admits every non
missing file. -/
theorem and_tag_filter (c : Catalog) (sort : SortMode) (off : Option Int) (sd : Option ℚ)
    (T : List String) (hT : T.Nodup) (hids : (c.files.map (·.id)).Nodup)
    (r : FileRow) (hr : r ∈ c.files) :
    (∃ it ∈ (getPlaylist c ⟨sort, 0, some T, none, off, sd⟩).items, it.id = r.id) ↔
      (r.isMissing = false ∧ ∀ t ∈ T, t ∈ fileTagNames c r.id) := by
  have hitems : (getPlaylist c ⟨sort, 0, some T, none, off, sd⟩).items =
      sortedRows c ⟨sort, 0, some T, none, off, sd⟩ := rfl
  rw [hitems]
  unfold sortedRows
  constructor
  · rintro ⟨it, hit, hid⟩
    rw [List.mem_insertionSort] at hit
    obtain ⟨r', hr', hq⟩ := List.mem_map.mp hit
    have hid' : r'.id = r.id := by rw [← hid, ← hq]; rfl
    have hmem := List.mem_filter.mp hr'
    have hrr : r' = r := List.inj_on_of_nodup_map hids hmem.1 hr hid'
    subst hrr
    have hpred := hmem.2
    simp only [Bool.and_eq_true, decide_eq_true_eq] at hpred
    refine ⟨hpred.1.1, ?_⟩
    have htf : passesTagFilter c T r'.id := hpred.2
    rw [passesTagFilter_iff c T hT r'.id] at htf
    exact htf
  · rintro ⟨hm, htags⟩
    refine ⟨toQueryRow c r, ?_, rfl⟩
    rw [List.mem_insertionSort]
    refine List.mem_map.mpr ⟨r, ?_, rfl⟩
    refine List.mem_filter.mpr ⟨hr, ?_⟩
    simp only [Bool.and_eq_true, decide_eq_true_eq]
    refine ⟨⟨hm, ?_⟩, ?_⟩
    · show passesRating 0 r
      unfold passesRating
      rw [if_neg (by omega)]
      trivial
    · show passesTagFilter c T r.id
      rw [passesTagFilter_iff c T hT r.id]
      exact htags

/-! ### C10: degenerate random seeds -/

/-- C10: the random order is driven only by the effective seed
abs(trunc(seed ?? 1)) or 1, so two requests agreeing on the effective seed
return identical responses; a missing seed or any seed of absolute value
below one normalizes to 1, and the general normalization formula holds. -/
theorem seed_normalization (c : Catalog) (sort : SortMode) (rm : Int)
    (tg : Option (List String)) (lim off : Option Int) (s1 s2 : Option ℚ) (p q : ℚ)
    (h : effSeed s1 = effSeed s2) (hq : |q| < 1) :
    getPlaylist c ⟨sort, rm, tg, lim, off, s1⟩ = getPlaylist c ⟨sort, rm, tg, lim, off, s2⟩ ∧
      effSeed none = 1 ∧
      effSeed (some q) = 1 ∧
      effSeed (some p) = (if (jsTrunc p).natAbs = 0 then 1 else ((jsTrunc p).natAbs : Int)) ∧
      1 ≤ effSeed s1 := by
  refine ⟨?_, by decide, ?_, ?_, ?_⟩
  · have hs : sortedRows c ⟨sort, rm, tg, lim, off, s1⟩ =
        sortedRows c ⟨sort, rm, tg, lim, off, s2⟩ := by
      unfold sortedRows
      dsimp only
      rw [h]
      rfl
    unfold getPlaylist
    dsimp only
    rw [hs]
    rfl
  · have habs : q.num.natAbs < q.den := by
      rcases abs_lt.mp hq with ⟨h1, h2⟩
      have hub : q.num < (q.den : Int) := Rat.lt_one_iff_num_lt_denom.mp h2
      have hlb : -(q.den : Int) < q.num := by
        have hneg : -q < 1 := by linarith
        have := Rat.lt_one_iff_num_lt_denom.mp hneg
        rw [Rat.neg_num, Rat.neg_den] at this
        omega
      omega
    unfold effSeed jsTrunc
    dsimp only [Option.getD_some]
    rw [Int.natAbs_tdiv, Int.natAbs_ofNat]
    have hz : q.num.natAbs.div q.den = 0 := Nat.div_eq_of_lt habs
    rw [hz]
    simp
  · rfl
  · unfold effSeed
    dsimp only
    split
    · omega
    · omega

/-! ### C7: mutations on an unknown file id -/

/-- C7 counterexample: on the empty catalog toggleTag of an unknown id
throws a constraint error and leaves the catalog changed (the tag row was
created before the failing association insert), so the claim that every
mutation on an unknown id is an error free no-op is false. -/
theorem toggleTag_unknown_counterexample :
    (toggleTag emptyCat 1 "x").threw = true ∧ (toggleTag emptyCat 1 "x").cat ≠ emptyCat := by
  decide

/-- C7 amended: on an id without a files row, setRating, setDuration and
setLastPlayed are no-ops returning the catalog unchanged; toggleTag instead
throws (OR IGNORE does not cover the foreign key constraint), leaving the
file, membership and association tables unchanged, though it may have
committed a fresh tag row first. -/
theorem mutation_unknown_id (c : Catalog) (fid : Nat) (v d now : Int) (t : String)
    (hun : fid ∉ c.files.map (·.id))
    (hftfk : ∀ ft ∈ c.fileTags, ft.fileId ∈ c.files.map (·.id))
    (htag : ∀ tr ∈ c.tags, 1 ≤ tr.id) :
    setRating c fid v = c ∧ setDuration c fid d = c ∧ setLastPlayed c fid now = c ∧
      (toggleTag c fid t).threw = true ∧
      (toggleTag c fid t).cat.files = c.files ∧
      (toggleTag c fid t).cat.members = c.members ∧
      (toggleTag c fid t).cat.fileTags = c.fileTags := by
  have hne : ∀ r ∈ c.files, r.id ≠ fid := by
    intro r hrmem heq
    exact hun (heq ▸ List.mem_map_of_mem (·.id) hrmem)
  have hmap : ∀ (f : FileRow → FileRow), (∀ r ∈ c.files, f r = r) → c.files.map f = c.files := by
    intro f hf
    calc c.files.map f = c.files.map id := List.map_congr_left hf
    _ = c.files := List.map_id c.files
  have hsr : setRating c fid v = c := by
    unfold setRating
    rw [hmap _ (fun r hrm => if_neg (hne r hrm))]
  have hsd : setDuration c fid d = c := by
    unfold setDuration
    rw [hmap _ (fun r hrm => if_neg (hne r hrm))]
  have hsl : setLastPlayed c fid now = c := by
    unfold setLastPlayed
    rw [hmap _ (fun r hrm => if_neg (hne r hrm))]
  have hanyf : ∀ (cf : List FileRow), cf = c.files → cf.any (fun r => r.id == fid) = false := by
    intro cf hcf
    subst hcf
    rw [List.any_eq_false]
    intro r hrm
    simpa using hne r hrm
  have hassoc : ∀ (c' : Catalog) (tid : Nat), c'.files = c.files → c'.fileTags = c.fileTags →
      c'.members = c.members →
      (toggleTagAssoc c' fid tid).threw = true ∧
      (toggleTagAssoc c' fid tid).cat.files = c.files ∧
      (toggleTagAssoc c' fid tid).cat.members = c.members ∧
      (toggleTagAssoc c' fid tid).cat.fileTags = c.fileTags := by
    intro c' tid hf hft hm
    have hfind : c'.fileTags.find? (fun ft => ft.fileId == fid && ft.tagId == tid) = none := by
      rw [List.find?_eq_none]
      intro ft hftm
      rw [hft] at hftm
      have := hftfk ft hftm
      simp only [Bool.and_eq_true, beq_iff_eq]
      rintro ⟨h1, -⟩
      exact hun (h1 ▸ this)
    unfold toggleTagAssoc
    rw [hfind]
    rw [hf, hanyf c.files rfl]
    simp only [Bool.false_and]
    exact ⟨rfl, hf, hm, hft⟩
  have htog : (toggleTag c fid t).threw = true ∧
      (toggleTag c fid t).cat.files = c.files ∧
      (toggleTag c fid t).cat.members = c.members ∧
      (toggleTag c fid t).cat.fileTags = c.fileTags := by
    unfold toggleTag
    cases hfd : (c.tags.find? (fun tr => tr.name == t)).map (·.id) with
    | none =>
        exact hassoc _ c.nextTagId rfl rfl rfl
    | some tid =>
        have htid : tid ≠ 0 := by
          rcases Option.map_eq_some'.mp hfd with ⟨tr, htr, hid⟩
          have hmemtr := List.mem_of_find?_eq_some htr
          have := htag tr hmemtr
          omega
        dsimp only
        rw [if_neg htid]
        exact hassoc c tid rfl rfl rfl
  exact ⟨hsr, hsd, hsl, htog.1, htog.2.1, htog.2.2.1, htog.2.2.2⟩

/-! ### C8: one unreadable directory aborts the whole walk -/

/-- C8: collectFiles propagates a readdir failure instead of isolating it:
on a tree holding two good video files and one unreadable subdirectory the
walk returns the error and discards the files already discovered, while the
same tree without the bad directory returns both files. -/
theorem collect_aborts_on_bad_dir :
    collectFiles badTree = Except.error () ∧
      collectFiles (some [FsNode.file "ok.mp4" 7 8 9, FsNode.file "later.mp4" 1 2 3]) =
        Except.ok [⟨"ok.mp4", "ok.mp4", ".mp4", 7, 8, 9⟩,
          ⟨"later.mp4", "later.mp4", ".mp4", 1, 2, 3⟩] := by
  constructor
  · simp [collectFiles, badTree, walkGo, dirChildren, fileResults, isVideoFile, extname,
      foldNocase, foldChar, videoExtensions]
  · simp [collectFiles, walkGo, dirChildren, fileResults, isVideoFile, extname,
      foldNocase, foldChar, videoExtensions, String.intercalate]
    constructor <;> rfl

/-! ### C6: saveOrder density and the playlist order -/

theorem saveOrderGo_fileIds (ids : List Nat) :
    ∀ (ms : List MemberRow) (i : Int),
      (saveOrderGo ms ids i).map (·.fileId) = ms.map (·.fileId) := by
  induction ids with
  | nil => intro ms i; rfl
  | cons fid rest ih =>
      intro ms i
      show (saveOrderGo (applyOrderUpdate ms fid i) rest (i + 1)).map (·.fileId) = _
      rw [ih]
      unfold applyOrderUpdate
      rw [List.map_map]
      apply List.map_congr_left
      intro m _
      by_cases h : m.fileId = fid <;> simp [h]

theorem saveOrder_triple (ms : List MemberRow) (a b c : Nat)
    (hab : a ≠ b) (hac : a ≠ c) (hbc : b ≠ c) (m : MemberRow)
    (hm : m ∈ saveOrderGo ms [a, b, c] 0) :
    (m.fileId = a → m.orderIndex = 0) ∧ (m.fileId = b → m.orderIndex = 1) ∧
      (m.fileId = c → m.orderIndex = 2) := by
  have hm' : m ∈ applyOrderUpdate (applyOrderUpdate (applyOrderUpdate ms a 0) b 1) c 2 := hm
  unfold applyOrderUpdate at hm'
  obtain ⟨m1, hm1, rfl⟩ := List.mem_map.mp hm'
  obtain ⟨m2, hm2, rfl⟩ := List.mem_map.mp hm1
  obtain ⟨m0, hm0, rfl⟩ := List.mem_map.mp hm2
  by_cases h3 : m0.fileId = a
  · simp [h3, hab, hac, Ne.symm hab, Ne.symm hac]
  · by_cases h1 : m0.fileId = b
    · simp [h1, hab, hbc, Ne.symm hab, Ne.symm hbc, h3]
    · by_cases h2 : m0.fileId = c
      · simp [h2, hac, hbc, Ne.symm hac, Ne.symm hbc, h3, h1]
      · simp [h3, h1, h2]

/-- C6 counterexample: strayCat has Library members exactly 2, 3, 4, yet
after saveOrder([4, 2, 3]) the playlist order query starts with the
membership-less file 1 (COALESCE gives it order 0, tied with file 4 and
ahead of it on the id tie-break), so the result is not the saved sequence
followed by the rest. -/
theorem reorder_counterexample :
    ((getPlaylist (saveOrder strayCat [4, 2, 3])
        ⟨.playlist, 0, none, none, none, none⟩).items.map (·.id)) = [1, 4, 2, 3] ∧
      ((getPlaylist (saveOrder strayCat [4, 2, 3])
        ⟨.playlist, 0, none, none, none, none⟩).items.map (·.id)).take 3 ≠ [4, 2, 3] := by
  decide

/-- C6 amended: when the Library members are exactly the distinct ids of the
argument list and the non missing files are exactly those members, after
saveOrder([f3, f1, f2]) the playlist order query returns exactly the id
sequence [f3, f1, f2], and the membership rows of those ids carry the dense
order indices 0, 1, 2 of their list positions. -/
theorem reorder_density (c : Catalog) (f3 f1 f2 : Nat)
    (hids : (c.files.map (·.id)).Nodup)
    (hdist : ([f3, f1, f2] : List Nat).Nodup)
    (hnm : ∀ r ∈ c.files, (r.isMissing = false ↔ r.id ∈ ([f3, f1, f2] : List Nat)))
    (hex : ∀ fid ∈ ([f3, f1, f2] : List Nat), ∃ r ∈ c.files, r.id = fid)
    (hmemex : ∀ fid ∈ ([f3, f1, f2] : List Nat), ∃ m ∈ c.members, m.fileId = fid) :
    ((getPlaylist (saveOrder c [f3, f1, f2])
        ⟨.playlist, 0, none, none, none, none⟩).items.map (·.id)) = [f3, f1, f2] ∧
      (∀ m ∈ (saveOrder c [f3, f1, f2]).members,
        (m.fileId = f3 → m.orderIndex = 0) ∧ (m.fileId = f1 → m.orderIndex = 1) ∧
          (m.fileId = f2 → m.orderIndex = 2)) := by
  have h31 : f3 ≠ f1 := by simp [List.nodup_cons] at hdist; tauto
  have h32 : f3 ≠ f2 := by simp [List.nodup_cons] at hdist; tauto
  have h12 : f1 ≠ f2 := by simp [List.nodup_cons] at hdist; tauto
  set c' := saveOrder c [f3, f1, f2] with hc'
  have htriple : ∀ m ∈ c'.members,
      (m.fileId = f3 → m.orderIndex = 0) ∧ (m.fileId = f1 → m.orderIndex = 1) ∧
        (m.fileId = f2 → m.orderIndex = 2) :=
    fun m hm => saveOrder_triple c.members f3 f1 f2 h31 h32 h12 m hm
  refine ⟨?_, htriple⟩
  -- the membership rows the query reads
  have hmem' : ∀ fid ∈ ([f3, f1, f2] : List Nat), ∃ m ∈ c'.members, m.fileId = fid := by
    intro fid hfid
    obtain ⟨m0, hm0, hid0⟩ := hmemex fid hfid
    have : m0.fileId ∈ (c'.members.map (·.fileId)) := by
      show m0.fileId ∈ (saveOrderGo c.members [f3, f1, f2] 0).map (·.fileId)
      rw [saveOrderGo_fileIds]
      exact List.mem_map_of_mem (·.fileId) hm0
    obtain ⟨m, hm, hfidm⟩ := List.mem_map.mp this
    exact ⟨m, hm, hfidm.trans hid0⟩
  have hmof : ∀ fid ∈ ([f3, f1, f2] : List Nat), ∃ m, memberOf c'.members fid = some m ∧
      m ∈ c'.members ∧ m.fileId = fid := by
    intro fid hfid
    obtain ⟨m0, hm0, hid0⟩ := hmem' fid hfid
    have hsome : (c'.members.find? (fun m => m.fileId == fid)).isSome := by
      rw [List.find?_isSome]
      exact ⟨m0, hm0, by simpa using hid0⟩
    obtain ⟨m, hm⟩ := Option.isSome_iff_exists.mp hsome
    refine ⟨m, hm, List.mem_of_find?_eq_some hm, ?_⟩
    have := List.find?_some hm
    simpa using this
  -- the three file rows
  obtain ⟨r3, hr3, hid3⟩ := hex f3 (by simp)
  obtain ⟨r1, hr1, hid1⟩ := hex f1 (by simp)
  obtain ⟨r2, hr2, hid2⟩ := hex f2 (by simp)
  set q : PlaylistRequest := ⟨.playlist, 0, none, none, none, none⟩ with hq
  -- the filtered rows are a permutation of the three
  have hfilt : filteredFiles c' q = c.files.filter
      (fun r => decide (r.isMissing = false) && decide (passesRating 0 r) &&
        decide (passesTagFilter c' [] r.id)) := rfl
  have hpredeq : ∀ r ∈ c.files, (decide (r.isMissing = false) && decide (passesRating 0 r) &&
      decide (passesTagFilter c' [] r.id)) = decide (r.isMissing = false) := by
    intro r _
    have h1 : passesRating 0 r := by
      unfold passesRating
      rw [if_neg (by omega)]
      trivial
    have h2 : passesTagFilter c' [] r.id := by
      unfold passesTagFilter
      simp
    simp [h1, h2]
  have hfilt2 : filteredFiles c' q = c.files.filter (fun r => decide (r.isMissing = false)) := by
    rw [hfilt, List.filter_congr hpredeq]
  have hnodup_files : c.files.Nodup := List.Nodup.of_map _ hids
  have hinj : ∀ x ∈ c.files, ∀ y ∈ c.files, x.id = y.id → x = y := by
    intro x hx y hy hxy
    exact List.inj_on_of_nodup_map hids hx hy hxy
  have hr31 : r3 ≠ r1 := fun h => h31 (by rw [← hid3, ← hid1, h])
  have hr32 : r3 ≠ r2 := fun h => h32 (by rw [← hid3, ← hid2, h])
  have hr12 : r1 ≠ r2 := fun h => h12 (by rw [← hid1, ← hid2, h])
  have hperm : (filteredFiles c' q).Perm [r3, r1, r2] := by
    apply List.perm_of_nodup_nodup_toFinset_eq
    · rw [hfilt2]
      exact List.Nodup.filter _ hnodup_files
    · simp [List.nodup_cons, hr31, hr32, hr12]
    · ext r
      simp only [List.mem_toFinset, hfilt2, List.mem_filter, decide_eq_true_eq]
      constructor
      · rintro ⟨hrf, hrm⟩
        have := (hnm r hrf).mp hrm
        simp only [List.mem_cons, List.not_mem_nil, or_false] at this
        rcases this with h | h | h
        · have : r = r3 := hinj r hrf r3 hr3 (h.trans hid3.symm)
          simp [this]
        · have : r = r1 := hinj r hrf r1 hr1 (h.trans hid1.symm)
          simp [this]
        · have : r = r2 := hinj r hrf r2 hr2 (h.trans hid2.symm)
          simp [this]
      · intro hmem3
        simp only [List.mem_cons, List.not_mem_nil, or_false] at hmem3
        rcases hmem3 with rfl | rfl | rfl
        · exact ⟨hr3, (hnm r hr3).mpr (by simp [hid3])⟩
        · exact ⟨hr1, (hnm r hr1).mpr (by simp [hid1])⟩
        · exact ⟨hr2, (hnm r hr2).mpr (by simp [hid2])⟩
  -- order indices of the three query rows
  have hoi : ∀ (fid : Nat) (pos : Int), fid ∈ ([f3, f1, f2] : List Nat) →
      ((fid = f3 → pos = 0) → (fid = f1 → pos = 1) → (fid = f2 → pos = 2) → False) →
        True := fun _ _ _ _ => trivial
  have hqrow : ∀ (r : FileRow) (fid : Nat) (pos : Int), r.id = fid →
      fid ∈ ([f3, f1, f2] : List Nat) →
      (∀ m ∈ c'.members, m.fileId = fid → m.orderIndex = pos) →
      toQueryRow c' r = QueryRow.mk fid r.path r.name r.rating r.createdMs pos := by
    intro r fid pos hidr hfid hval
    obtain ⟨m, hmof', hmmem, hmfid⟩ := hmof fid hfid
    unfold toQueryRow
    rw [hidr, hmof']
    have := hval m hmmem hmfid
    simp [this]
  have hv3 : ∀ m ∈ c'.members, m.fileId = f3 → m.orderIndex = 0 :=
    fun m hm h => (htriple m hm).1 h
  have hv1 : ∀ m ∈ c'.members, m.fileId = f1 → m.orderIndex = 1 :=
    fun m hm h => (htriple m hm).2.1 h
  have hv2 : ∀ m ∈ c'.members, m.fileId = f2 → m.orderIndex = 2 :=
    fun m hm h => (htriple m hm).2.2 h
  have hq3 := hqrow r3 f3 0 hid3 (by simp) hv3
  have hq1 := hqrow r1 f1 1 hid1 (by simp) hv1
  have hq2 := hqrow r2 f2 2 hid2 (by simp) hv2
  -- sorting
  set le := rowLe SortMode.playlist (effSeed none) with hle
  have hitems : (getPlaylist c' q).items =
      ((filteredFiles c' q).map (toQueryRow c')).insertionSort le := rfl
  set L := (filteredFiles c' q).map (toQueryRow c') with hL
  set target : List QueryRow := [toQueryRow c' r3, toQueryRow c' r1, toQueryRow c' r2]
    with htarget
  have hpermL : (L.insertionSort le).Perm target := by
    have h1 : (L.insertionSort le).Perm L := List.perm_insertionSort le L
    exact h1.trans (hperm.map (toQueryRow c'))
  have hsorted1 : (L.insertionSort le).Pairwise le := by
    haveI : IsTotal QueryRow le := ⟨rowLe_total _ _⟩
    haveI : IsTrans QueryRow le := ⟨fun a b c => rowLe_trans _ _ a b c⟩
    exact List.sorted_insertionSort le L
  have hsorted2 : target.Pairwise le := by
    rw [htarget, hq3, hq1, hq2]
    refine List.Pairwise.cons ?_ (List.Pairwise.cons ?_ (List.pairwise_singleton _ _))
    · intro b hb
      simp only [List.mem_cons, List.not_mem_nil, or_false] at hb
      rcases hb with rfl | rfl <;>
        exact Or.inl (by norm_num)
    · intro b hb
      simp only [List.mem_cons, List.not_mem_nil, or_false] at hb
      subst hb
      exact Or.inl (by norm_num)
  have hanti : ∀ x ∈ L.insertionSort le, ∀ y ∈ L.insertionSort le,
      le x y → le y x → x = y := by
    intro x hx y hy hxy hyx
    rw [List.mem_insertionSort] at hx hy
    obtain ⟨rx, hrx, rfl⟩ := List.mem_map.mp hx
    obtain ⟨ry, hry, rfl⟩ := List.mem_map.mp hy
    have hkeys := lexLe_antisymm_keys (fun a : QueryRow => a.orderIndex) (fun a => a.id)
      (toQueryRow c' rx) (toQueryRow c' ry) hxy hyx
    have hidxy : rx.id = ry.id := hkeys.2
    have hrxy : rx = ry := by
      rw [hfilt2] at hrx hry
      exact hinj rx (List.mem_of_mem_filter hrx) ry (List.mem_of_mem_filter hry) hidxy
    rw [hrxy]
  have hfinal : L.insertionSort le = target :=
    perm_eq_of_sorted le _ _ hpermL hsorted1 hsorted2 hanti
  rw [hitems, hfinal, htarget, hq3, hq1, hq2]
  rfl

/-! ### Lemmas about the frozen lookup map of the scan -/

theorem lookup_sound (c : Catalog) (p : String) (fid : Nat) (o : Option Int)
    (h : lookupExisting c p = some (fid, o)) :
    ∃ r ∈ c.files, r.path = p ∧ r.id = fid ∧ o = (memberOf c.members fid).map (·.orderIndex) := by
  unfold lookupExisting at h
  rcases Option.map_eq_some'.mp h with ⟨r, hfind, hval⟩
  have hmem : r ∈ c.files := List.mem_reverse.mp (List.mem_of_find?_eq_some hfind)
  have hpred := List.find?_some hfind
  have hpath : r.path = p := by simpa using hpred
  have h1 : r.id = fid := congrArg Prod.fst hval
  refine ⟨r, hmem, hpath, h1, ?_⟩
  have h2 := congrArg Prod.snd hval
  simp only at h2
  rw [← h2, h1]

theorem lookup_complete (c : Catalog) (p : String) (r : FileRow)
    (hr : r ∈ c.files) (hp : r.path = p) :
    ∃ x, lookupExisting c p = some x := by
  unfold lookupExisting
  have hsome : (c.files.reverse.find? (fun r' => r'.path == p)).isSome := by
    rw [List.find?_isSome]
    exact ⟨r, List.mem_reverse.mpr hr, by simpa using hp⟩
  obtain ⟨r', hr'⟩ := Option.isSome_iff_exists.mp hsome
  exact ⟨_, by rw [hr']; rfl⟩

theorem lookup_unique (c : Catalog) (p : String) (r : FileRow)
    (hpaths : (c.files.map (·.path)).Nodup)
    (hr : r ∈ c.files) (hp : r.path = p) :
    lookupExisting c p = some (r.id, (memberOf c.members r.id).map (·.orderIndex)) := by
  obtain ⟨⟨fid, o⟩, hx⟩ := lookup_complete c p r hr hp
  obtain ⟨r', hr', hp', hid', ho'⟩ := lookup_sound c p fid o hx
  have : r' = r := List.inj_on_of_nodup_map hpaths hr' hr (hp'.trans hp.symm)
  subst this
  rw [hx, ho', hid']

/-! ### Step and fold lemmas for the reconciliation loop -/

theorem scanGo_tags (lk : String → Option (Nat × Option Int)) (now : Int) :
    ∀ (fs : List ScannedFile) (acc : ScanAcc),
      (scanGo lk now acc fs).cat.tags = acc.cat.tags ∧
      (scanGo lk now acc fs).cat.fileTags = acc.cat.fileTags ∧
      (scanGo lk now acc fs).cat.nextTagId = acc.cat.nextTagId ∧
      (scanGo lk now acc fs).cat.nextFileTagId = acc.cat.nextFileTagId := by
  intro fs
  induction fs with
  | nil => intro acc; exact ⟨rfl, rfl, rfl, rfl⟩
  | cons f rest ih =>
      intro acc
      show (scanGo lk now (scanStep lk now acc f) rest).cat.tags = _ ∧ _
      have h := ih (scanStep lk now acc f)
      have hstep : (scanStep lk now acc f).cat.tags = acc.cat.tags ∧
          (scanStep lk now acc f).cat.fileTags = acc.cat.fileTags ∧
          (scanStep lk now acc f).cat.nextTagId = acc.cat.nextTagId ∧
          (scanStep lk now acc f).cat.nextFileTagId = acc.cat.nextFileTagId := by
        unfold scanStep
        rcases lk f.relativePath with _ | ⟨fid, oIdx⟩
        · exact ⟨rfl, rfl, rfl, rfl⟩
        · rcases oIdx with _ | oi <;> exact ⟨rfl, rfl, rfl, rfl⟩
      exact ⟨h.1.trans hstep.1, h.2.1.trans hstep.2.1, h.2.2.1.trans hstep.2.2.1,
        h.2.2.2.trans hstep.2.2.2⟩

theorem scanStep_nextFileId (lk : String → Option (Nat × Option Int)) (now : Int)
    (acc : ScanAcc) (f : ScannedFile) :
    acc.cat.nextFileId ≤ (scanStep lk now acc f).cat.nextFileId := by
  unfold scanStep
  rcases lk f.relativePath with _ | ⟨fid, oIdx⟩
  · exact Nat.le_succ _
  · rcases oIdx with _ | oi <;> exact Nat.le_refl _

theorem scanGo_nextFileId (lk : String → Option (Nat × Option Int)) (now : Int) :
    ∀ (fs : List ScannedFile) (acc : ScanAcc),
      acc.cat.nextFileId ≤ (scanGo lk now acc fs).cat.nextFileId := by
  intro fs
  induction fs with
  | nil => intro acc; exact Nat.le_refl _
  | cons f rest ih =>
      intro acc
      exact (scanStep_nextFileId lk now acc f).trans (ih (scanStep lk now acc f))

theorem scanStep_members_mono (lk : String → Option (Nat × Option Int)) (now : Int)
    (acc : ScanAcc) (f : ScannedFile) (m : MemberRow) (hm : m ∈ acc.cat.members) :
    m ∈ (scanStep lk now acc f).cat.members := by
  unfold scanStep
  rcases lk f.relativePath with _ | ⟨fid, oIdx⟩
  · show m ∈ insertMember acc.cat.members _ _
    unfold insertMember
    split
    · exact hm
    · exact List.mem_append_left _ hm
  · rcases oIdx with _ | oi
    · show m ∈ insertMember acc.cat.members _ _
      unfold insertMember
      split
      · exact hm
      · exact List.mem_append_left _ hm
    · exact hm

theorem scanGo_members_mono (lk : String → Option (Nat × Option Int)) (now : Int) :
    ∀ (fs : List ScannedFile) (acc : ScanAcc) (m : MemberRow), m ∈ acc.cat.members →
      m ∈ (scanGo lk now acc fs).cat.members := by
  intro fs
  induction fs with
  | nil => intro acc m hm; exact hm
  | cons f rest ih =>
      intro acc m hm
      exact ih (scanStep lk now acc f) m (scanStep_members_mono lk now acc f m hm)

theorem insertMember_nodup (ms : List MemberRow) (fid : Nat) (ord : Int)
    (h : (ms.map (·.fileId)).Nodup) : ((insertMember ms fid ord).map (·.fileId)).Nodup := by
  unfold insertMember
  split
  · exact h
  · next hany =>
      rw [List.map_append, List.nodup_append]
      refine ⟨h, by simp, ?_⟩
      intro x hx
      simp only [List.map_cons, List.map_nil, List.mem_cons, List.not_mem_nil, or_false]
      intro hxe
      subst hxe
      obtain ⟨m, hmm, hmid⟩ := List.mem_map.mp hx
      apply hany
      rw [List.any_eq_true]
      exact ⟨m, hmm, by simpa using hmid⟩

theorem insertMember_has (ms : List MemberRow) (fid : Nat) (ord : Int) :
    (insertMember ms fid ord).any (fun m => m.fileId == fid) = true := by
  unfold insertMember
  split
  · next h => exact h
  · rw [List.any_eq_true]
    exact ⟨⟨fid, ord⟩, List.mem_append_right _ (by simp), by simp⟩

theorem scanStep_members_nodup (lk : String → Option (Nat × Option Int)) (now : Int)
    (acc : ScanAcc) (f : ScannedFile) (h : (acc.cat.members.map (·.fileId)).Nodup) :
    (((scanStep lk now acc f).cat.members).map (·.fileId)).Nodup := by
  unfold scanStep
  rcases lk f.relativePath with _ | ⟨fid, oIdx⟩
  · exact insertMember_nodup _ _ _ h
  · rcases oIdx with _ | oi
    · exact insertMember_nodup _ _ _ h
    · exact h

theorem scanGo_members_nodup (lk : String → Option (Nat × Option Int)) (now : Int) :
    ∀ (fs : List ScannedFile) (acc : ScanAcc), (acc.cat.members.map (·.fileId)).Nodup →
      (((scanGo lk now acc fs).cat.members).map (·.fileId)).Nodup := by
  intro fs
  induction fs with
  | nil => intro acc h; exact h
  | cons f rest ih =>
      intro acc h
      exact ih (scanStep lk now acc f) (scanStep_members_nodup lk now acc f h)

theorem scanStep_hasMember_mono (lk : String → Option (Nat × Option Int)) (now : Int)
    (acc : ScanAcc) (f : ScannedFile) (fid : Nat)
    (h : acc.cat.members.any (fun m => m.fileId == fid) = true) :
    ((scanStep lk now acc f).cat.members).any (fun m => m.fileId == fid) = true := by
  rw [List.any_eq_true] at h ⊢
  obtain ⟨m, hm, hp⟩ := h
  exact ⟨m, scanStep_members_mono lk now acc f m hm, hp⟩

theorem scanGo_hasMember_mono (lk : String → Option (Nat × Option Int)) (now : Int)
    (fs : List ScannedFile) (acc : ScanAcc) (fid : Nat)
    (h : acc.cat.members.any (fun m => m.fileId == fid) = true) :
    ((scanGo lk now acc fs).cat.members).any (fun m => m.fileId == fid) = true := by
  rw [List.any_eq_true] at h ⊢
  obtain ⟨m, hm, hp⟩ := h
  exact ⟨m, scanGo_members_mono lk now fs acc m hm, hp⟩

theorem scanStep_seen_mono (lk : String → Option (Nat × Option Int)) (now : Int)
    (acc : ScanAcc) (f : ScannedFile) (x : Nat) (hx : x ∈ acc.seen) :
    x ∈ (scanStep lk now acc f).seen := by
  have hins : ∀ (s : List Nat) (fid : Nat), x ∈ s → x ∈ insertSeen s fid := by
    intro s fid hxs
    unfold insertSeen
    split
    · exact hxs
    · exact List.mem_cons_of_mem _ hxs
  unfold scanStep
  rcases lk f.relativePath with _ | ⟨fid, oIdx⟩
  · exact hins _ _ hx
  · rcases oIdx with _ | oi <;> exact hins _ _ hx

theorem scanGo_seen_mono (lk : String → Option (Nat × Option Int)) (now : Int) :
    ∀ (fs : List ScannedFile) (acc : ScanAcc) (x : Nat), x ∈ acc.seen →
      x ∈ (scanGo lk now acc fs).seen := by
  intro fs
  induction fs with
  | nil => intro acc x hx; exact hx
  | cons f rest ih =>
      intro acc x hx
      exact ih (scanStep lk now acc f) x (scanStep_seen_mono lk now acc f x hx)

theorem mem_insertSeen_self (s : List Nat) (fid : Nat) : fid ∈ insertSeen s fid := by
  unfold insertSeen
  split
  · next h => exact h
  · exact List.mem_cons_self _ _

theorem scanGo_seen_hit (lk : String → Option (Nat × Option Int)) (now : Int) :
    ∀ (fs : List ScannedFile) (acc : ScanAcc) (f : ScannedFile) (fid : Nat)
      (oIdx : Option Int), f ∈ fs → lk f.relativePath = some (fid, oIdx) →
      fid ∈ (scanGo lk now acc fs).seen := by
  intro fs
  induction fs with
  | nil => intro acc f fid oIdx hf; exact absurd hf (List.not_mem_nil f)
  | cons f0 rest ih =>
      intro acc f fid oIdx hf hlk
      rcases List.mem_cons.mp hf with rfl | hf'
      · apply scanGo_seen_mono lk now rest
        unfold scanStep
        rw [hlk]
        rcases oIdx with _ | oi <;> exact mem_insertSeen_self _ _
      · exact ih (scanStep lk now acc f0) f fid oIdx hf' hlk

theorem mem_insertSeen_elim (s : List Nat) (fid x : Nat) (hx : x ∈ insertSeen s fid) :
    x ∈ s ∨ x = fid := by
  unfold insertSeen at hx
  split at hx
  · exact Or.inl hx
  · rcases List.mem_cons.mp hx with h | h
    · exact Or.inr h
    · exact Or.inl h

theorem scanGo_seen_bound (lk : String → Option (Nat × Option Int)) (now : Int) :
    ∀ (fs : List ScannedFile) (acc : ScanAcc) (x : Nat), x ∈ (scanGo lk now acc fs).seen →
      x ∈ acc.seen ∨ (∃ f ∈ fs, ∃ o, lk f.relativePath = some (x, o)) ∨
        acc.cat.nextFileId ≤ x := by
  intro fs
  induction fs with
  | nil => intro acc x hx; exact Or.inl hx
  | cons f0 rest ih =>
      intro acc x hx
      rcases ih (scanStep lk now acc f0) x hx with h | h | h
      · rcases hlk : lk f0.relativePath with _ | ⟨fid, oIdx⟩
        · have hseen : (scanStep lk now acc f0).seen = insertSeen acc.seen acc.cat.nextFileId := by
            unfold scanStep
            rw [hlk]
          rw [hseen] at h
          rcases mem_insertSeen_elim _ _ _ h with h' | h'
          · exact Or.inl h'
          · exact Or.inr (Or.inr (le_of_eq h'.symm))
        · have hseen : (scanStep lk now acc f0).seen = insertSeen acc.seen fid := by
            unfold scanStep
            rw [hlk]
            rcases oIdx with _ | oi <;> rfl
          rw [hseen] at h
          rcases mem_insertSeen_elim _ _ _ h with h' | h'
          · exact Or.inl h'
          · exact Or.inr (Or.inl ⟨f0, List.mem_cons_self _ _, oIdx, by rw [hlk, h']⟩)
      · obtain ⟨f, hf, o, ho⟩ := h
        exact Or.inr (Or.inl ⟨f, List.mem_cons_of_mem _ hf, o, ho⟩)
      · exact Or.inr (Or.inr ((scanStep_nextFileId lk now acc f0).trans h))

theorem map_update_proj {β : Type} (files : List FileRow) (f : ScannedFile) (fid : Nat)
    (π : FileRow → β) (hπ : ∀ r, π (applyUpdate f r) = π r) :
    (files.map (fun r => if r.id = fid then applyUpdate f r else r)).map π = files.map π := by
  rw [List.map_map]
  apply List.map_congr_left
  intro r _
  by_cases h : r.id = fid <;> simp [h, hπ]

theorem scanStep_tracked (lk : String → Option (Nat × Option Int)) (now : Int)
    (acc : ScanAcc) (f : ScannedFile) (i : Nat) (p : String) (ρ : Int)
    (h : ∃ r ∈ acc.cat.files, r.id = i ∧ r.path = p ∧ r.rating = ρ) :
    ∃ r ∈ (scanStep lk now acc f).cat.files, r.id = i ∧ r.path = p ∧ r.rating = ρ := by
  obtain ⟨r, hr, h1, h2, h3⟩ := h
  unfold scanStep
  rcases lk f.relativePath with _ | ⟨fid, oIdx⟩
  · exact ⟨r, List.mem_append_left _ hr, h1, h2, h3⟩
  · rcases oIdx with _ | oi <;>
    · refine ⟨if r.id = fid then applyUpdate f r else r, List.mem_map_of_mem _ hr, ?_⟩
      by_cases hc : r.id = fid
      · simp [hc, applyUpdate]
        exact ⟨hc ▸ h1, h2, h3⟩
      · simp [hc]
        exact ⟨h1, h2, h3⟩

theorem scanStep_tracked_clear (lk : String → Option (Nat × Option Int)) (now : Int)
    (acc : ScanAcc) (f : ScannedFile) (i : Nat) (p : String) (ρ : Int)
    (h : ∃ r ∈ acc.cat.files, r.id = i ∧ r.path = p ∧ r.rating = ρ ∧ r.isMissing = false) :
    ∃ r ∈ (scanStep lk now acc f).cat.files,
      r.id = i ∧ r.path = p ∧ r.rating = ρ ∧ r.isMissing = false := by
  obtain ⟨r, hr, h1, h2, h3, h4⟩ := h
  unfold scanStep
  rcases lk f.relativePath with _ | ⟨fid, oIdx⟩
  · exact ⟨r, List.mem_append_left _ hr, h1, h2, h3, h4⟩
  · rcases oIdx with _ | oi <;>
    · refine ⟨if r.id = fid then applyUpdate f r else r, List.mem_map_of_mem _ hr, ?_⟩
      by_cases hc : r.id = fid
      · simp [hc, applyUpdate]
        exact ⟨hc ▸ h1, h2, h3⟩
      · simp [hc]
        exact ⟨h1, h2, h3, h4⟩

theorem scanGo_tracked_clear (lk : String → Option (Nat × Option Int)) (now : Int) :
    ∀ (fs : List ScannedFile) (acc : ScanAcc) (i : Nat) (p : String) (ρ : Int),
      (∃ r ∈ acc.cat.files, r.id = i ∧ r.path = p ∧ r.rating = ρ ∧ r.isMissing = false) →
      ∃ r ∈ (scanGo lk now acc fs).cat.files,
        r.id = i ∧ r.path = p ∧ r.rating = ρ ∧ r.isMissing = false := by
  intro fs
  induction fs with
  | nil => intro acc i p ρ h; exact h
  | cons f0 rest ih =>
      intro acc i p ρ h
      exact ih (scanStep lk now acc f0) i p ρ (scanStep_tracked_clear lk now acc f0 i p ρ h)

theorem scanStep_hit_clear (lk : String → Option (Nat × Option Int)) (now : Int)
    (acc : ScanAcc) (f : ScannedFile) (i : Nat) (p : String) (ρ : Int) (oIdx : Option Int)
    (hlk : lk f.relativePath = some (i, oIdx))
    (h : ∃ r ∈ acc.cat.files, r.id = i ∧ r.path = p ∧ r.rating = ρ) :
    ∃ r ∈ (scanStep lk now acc f).cat.files,
      r.id = i ∧ r.path = p ∧ r.rating = ρ ∧ r.isMissing = false := by
  obtain ⟨r, hr, h1, h2, h3⟩ := h
  unfold scanStep
  rw [hlk]
  rcases oIdx with _ | oi <;>
  · refine ⟨if r.id = i then applyUpdate f r else r, List.mem_map_of_mem _ hr, ?_⟩
    rw [if_pos h1]
    simp [applyUpdate]
    exact ⟨h1, h2, h3⟩

theorem scanGo_hit_clears (lk : String → Option (Nat × Option Int)) (now : Int) :
    ∀ (fs : List ScannedFile) (acc : ScanAcc) (i : Nat) (p : String) (ρ : Int),
      (∃ r ∈ acc.cat.files, r.id = i ∧ r.path = p ∧ r.rating = ρ) →
      (∃ f ∈ fs, ∃ o, lk f.relativePath = some (i, o)) →
      ∃ r ∈ (scanGo lk now acc fs).cat.files,
        r.id = i ∧ r.path = p ∧ r.rating = ρ ∧ r.isMissing = false := by
  intro fs
  induction fs with
  | nil =>
      intro acc i p ρ _ hhit
      obtain ⟨f, hf, _⟩ := hhit
      exact absurd hf (List.not_mem_nil f)
  | cons f0 rest ih =>
      intro acc i p ρ hq hhit
      obtain ⟨f, hf, o, ho⟩ := hhit
      rcases List.mem_cons.mp hf with rfl | hf'
      · exact scanGo_tracked_clear lk now rest (scanStep lk now acc f) i p ρ
          (scanStep_hit_clear lk now acc f i p ρ o ho hq)
      · exact ih (scanStep lk now acc f0) i p ρ (scanStep_tracked lk now acc f0 i p ρ hq)
          ⟨f, hf', o, ho⟩

theorem scanStep_row_origin (lk : String → Option (Nat × Option Int)) (now : Int)
    (acc : ScanAcc) (f : ScannedFile) (r' : FileRow)
    (hr' : r' ∈ (scanStep lk now acc f).cat.files) :
    (∃ r ∈ acc.cat.files, r'.id = r.id ∧ r'.path = r.path ∧ r'.rating = r.rating) ∨
      r'.path = f.relativePath := by
  revert hr'
  unfold scanStep
  rcases lk f.relativePath with _ | ⟨fid, oIdx⟩
  · intro hr'
    rcases List.mem_append.mp hr' with h | h
    · exact Or.inl ⟨r', h, rfl, rfl, rfl⟩
    · simp only [List.mem_cons, List.not_mem_nil, or_false] at h
      subst h
      exact Or.inr rfl
  · rcases oIdx with _ | oi <;>
    · intro hr'
      obtain ⟨r, hr, hrr⟩ := List.mem_map.mp hr'
      subst hrr
      left
      by_cases hc : r.id = fid
      · exact ⟨r, hr, by simp [hc, applyUpdate]⟩
      · exact ⟨r, hr, by simp [hc]⟩

theorem scanGo_row_origin (lk : String → Option (Nat × Option Int)) (now : Int) :
    ∀ (fs : List ScannedFile) (acc : ScanAcc) (r' : FileRow),
      r' ∈ (scanGo lk now acc fs).cat.files →
      (∃ r ∈ acc.cat.files, r'.id = r.id ∧ r'.path = r.path ∧ r'.rating = r.rating) ∨
        (∃ f ∈ fs, r'.path = f.relativePath) := by
  intro fs
  induction fs with
  | nil => intro acc r' h; exact Or.inl ⟨r', h, rfl, rfl, rfl⟩
  | cons f0 rest ih =>
      intro acc r' h
      rcases ih (scanStep lk now acc f0) r' h with h' | h'
      · obtain ⟨r, hr, e1, e2, e3⟩ := h'
        rcases scanStep_row_origin lk now acc f0 r hr with h'' | h''
        · obtain ⟨r0, hr0, e1', e2', e3'⟩ := h''
          exact Or.inl ⟨r0, hr0, e1.trans e1', e2.trans e2', e3.trans e3'⟩
        · exact Or.inr ⟨f0, List.mem_cons_self _ _, e2.trans h''⟩
      · obtain ⟨f, hf, he⟩ := h'
        exact Or.inr ⟨f, List.mem_cons_of_mem _ hf, he⟩

theorem scanStep_untouched (lk : String → Option (Nat × Option Int)) (now : Int)
    (acc : ScanAcc) (f : ScannedFile) (r : FileRow) (hr : r ∈ acc.cat.files)
    (hno : ∀ fid o, lk f.relativePath = some (fid, o) → fid ≠ r.id) :
    r ∈ (scanStep lk now acc f).cat.files := by
  unfold scanStep
  rcases hlk : lk f.relativePath with _ | ⟨fid, oIdx⟩
  · exact List.mem_append_left _ hr
  · have hne : fid ≠ r.id := hno fid oIdx hlk
    rcases oIdx with _ | oi <;>
    · have : (if r.id = fid then applyUpdate f r else r) = r := if_neg (fun h => hne h.symm)
      rw [← this]
      exact List.mem_map_of_mem _ hr

theorem scanGo_untouched (lk : String → Option (Nat × Option Int)) (now : Int) :
    ∀ (fs : List ScannedFile) (acc : ScanAcc) (r : FileRow), r ∈ acc.cat.files →
      (∀ f ∈ fs, ∀ fid o, lk f.relativePath = some (fid, o) → fid ≠ r.id) →
      r ∈ (scanGo lk now acc fs).cat.files := by
  intro fs
  induction fs with
  | nil => intro acc r hr _; exact hr
  | cons f0 rest ih =>
      intro acc r hr hno
      exact ih (scanStep lk now acc f0) r
        (scanStep_untouched lk now acc f0 r hr (hno f0 (List.mem_cons_self _ _)))
        (fun f hf => hno f (List.mem_cons_of_mem _ hf))

theorem scanStep_length_added (lk : String → Option (Nat × Option Int)) (now : Int)
    (acc : ScanAcc) (f : ScannedFile) :
    (scanStep lk now acc f).cat.files.length + acc.added =
      acc.cat.files.length + (scanStep lk now acc f).added := by
  unfold scanStep
  rcases lk f.relativePath with _ | ⟨fid, oIdx⟩
  · simp only [List.length_append, List.length_cons, List.length_nil]
    omega
  · rcases oIdx with _ | oi <;>
    · simp only [List.length_map]

theorem scanGo_length_added (lk : String → Option (Nat × Option Int)) (now : Int) :
    ∀ (fs : List ScannedFile) (acc : ScanAcc),
      (scanGo lk now acc fs).cat.files.length + acc.added =
        acc.cat.files.length + (scanGo lk now acc fs).added := by
  intro fs
  induction fs with
  | nil => intro acc; rfl
  | cons f0 rest ih =>
      intro acc
      have h1 := ih (scanStep lk now acc f0)
      have h2 := scanStep_length_added lk now acc f0
      show (scanGo lk now (scanStep lk now acc f0) rest).cat.files.length + acc.added =
        acc.cat.files.length + (scanGo lk now (scanStep lk now acc f0) rest).added
      omega

theorem scanStep_ids (lk : String → Option (Nat × Option Int)) (now : Int)
    (acc : ScanAcc) (f : ScannedFile)
    (h1 : (acc.cat.files.map (·.id)).Nodup)
    (h2 : ∀ r ∈ acc.cat.files, r.id < acc.cat.nextFileId) :
    ((scanStep lk now acc f).cat.files.map (·.id)).Nodup ∧
      (∀ r ∈ (scanStep lk now acc f).cat.files, r.id < (scanStep lk now acc f).cat.nextFileId) := by
  unfold scanStep
  rcases lk f.relativePath with _ | ⟨fid, oIdx⟩
  · constructor
    · rw [List.map_append, List.nodup_append]
      refine ⟨h1, by simp, ?_⟩
      intro x hx
      simp only [List.map_cons, List.map_nil, List.mem_cons, List.not_mem_nil, or_false]
      intro hxe
      obtain ⟨r, hr, hrid⟩ := List.mem_map.mp hx
      have := h2 r hr
      show False
      rw [hxe] at hrid
      have : r.id < acc.cat.nextFileId := h2 r hr
      simp [newFileRow] at hrid
      omega
    · intro r hr
      rcases List.mem_append.mp hr with h | h
      · exact (h2 r h).trans (Nat.lt_succ_self _)
      · simp only [List.mem_cons, List.not_mem_nil, or_false] at h
        subst h
        simp [newFileRow]
  · rcases oIdx with _ | oi <;>
    · constructor
      · rw [map_update_proj acc.cat.files f fid (fun r => r.id) (fun r => rfl)]
        exact h1
      · intro r hr
        obtain ⟨r0, hr0, hrr⟩ := List.mem_map.mp hr
        subst hrr
        by_cases hc : r0.id = fid
        · simpa [hc, applyUpdate] using hc ▸ h2 r0 hr0
        · simpa [hc] using h2 r0 hr0

theorem scanGo_ids (lk : String → Option (Nat × Option Int)) (now : Int) :
    ∀ (fs : List ScannedFile) (acc : ScanAcc),
      (acc.cat.files.map (·.id)).Nodup →
      (∀ r ∈ acc.cat.files, r.id < acc.cat.nextFileId) →
      ((scanGo lk now acc fs).cat.files.map (·.id)).Nodup ∧
        (∀ r ∈ (scanGo lk now acc fs).cat.files, r.id < (scanGo lk now acc fs).cat.nextFileId) := by
  intro fs
  induction fs with
  | nil => intro acc h1 h2; exact ⟨h1, h2⟩
  | cons f0 rest ih =>
      intro acc h1 h2
      have hstep := scanStep_ids lk now acc f0 h1 h2
      exact ih (scanStep lk now acc f0) hstep.1 hstep.2

theorem scanGo_paths (lk : String → Option (Nat × Option Int)) (now : Int) :
    ∀ (fs : List ScannedFile) (acc : ScanAcc),
      (acc.cat.files.map (·.path)).Nodup →
      ((fs.map (·.relativePath)).Nodup) →
      (∀ f ∈ fs, lk f.relativePath = none → f.relativePath ∉ acc.cat.files.map (·.path)) →
      ((scanGo lk now acc fs).cat.files.map (·.path)).Nodup := by
  intro fs
  induction fs with
  | nil => intro acc h1 _ _; exact h1
  | cons f0 rest ih =>
      intro acc h1 hrel hnew
      have hrel' : (rest.map (·.relativePath)).Nodup := (List.nodup_cons.mp hrel).2
      have hf0 : f0.relativePath ∉ rest.map (·.relativePath) := (List.nodup_cons.mp hrel).1
      rcases hlk : lk f0.relativePath with _ | ⟨fid, oIdx⟩
      · have hpaths : (scanStep lk now acc f0).cat.files.map (·.path) =
            acc.cat.files.map (·.path) ++ [f0.relativePath] := by
          unfold scanStep
          rw [hlk]
          rw [List.map_append]
          rfl
        apply ih (scanStep lk now acc f0)
        · rw [hpaths, List.nodup_append]
          refine ⟨h1, by simp, ?_⟩
          intro x hx
          simp only [List.mem_cons, List.not_mem_nil, or_false]
          intro hxe
          subst hxe
          exact (hnew f0 (List.mem_cons_self _ _) hlk) hx
        · exact hrel'
        · intro f hf hfl
          rw [hpaths]
          rw [List.mem_append]
          rintro (h | h)
          · exact hnew f (List.mem_cons_of_mem _ hf) hfl h
          · simp only [List.mem_cons, List.not_mem_nil, or_false] at h
            apply hf0
            rw [← h]
            exact List.mem_map_of_mem _ hf
      · have hpaths : (scanStep lk now acc f0).cat.files.map (·.path) =
            acc.cat.files.map (·.path) := by
          unfold scanStep
          rw [hlk]
          rcases oIdx with _ | oi <;>
            exact map_update_proj acc.cat.files f0 fid (fun r => r.path) (fun r => rfl)
        apply ih (scanStep lk now acc f0)
        · rw [hpaths]; exact h1
        · exact hrel'
        · intro f hf hfl
          rw [hpaths]
          exact hnew f (List.mem_cons_of_mem _ hf) hfl

theorem scanStep_hasRow (lk : String → Option (Nat × Option Int)) (now : Int)
    (acc : ScanAcc) (f : ScannedFile) (p : String) (fid : Nat)
    (h : ∃ r ∈ acc.cat.files, r.path = p ∧ r.id = fid) :
    ∃ r ∈ (scanStep lk now acc f).cat.files, r.path = p ∧ r.id = fid := by
  obtain ⟨r, hr, h1, h2⟩ := h
  have := scanStep_tracked lk now acc f fid p r.rating ⟨r, hr, h2, h1, rfl⟩
  obtain ⟨r', hr', e1, e2, _⟩ := this
  exact ⟨r', hr', e2, e1⟩

theorem scanGo_covers (lk : String → Option (Nat × Option Int)) (now : Int) :
    ∀ (fs : List ScannedFile) (acc : ScanAcc),
      (∀ p fid o, lk p = some (fid, o) →
        (∃ r ∈ acc.cat.files, r.path = p ∧ r.id = fid) ∧
          (o ≠ none → acc.cat.members.any (fun m => m.fileId == fid) = true)) →
      ∀ f ∈ fs, ∃ fid,
        (∃ r ∈ (scanGo lk now acc fs).cat.files, r.path = f.relativePath ∧ r.id = fid ∧
          r.isMissing = false) ∧
        (((scanGo lk now acc fs).cat.members).any (fun m => m.fileId == fid) = true) ∧
        fid ∈ (scanGo lk now acc fs).seen := by
  intro fs
  induction fs with
  | nil => intro acc _ f hf; exact absurd hf (List.not_mem_nil f)
  | cons f0 rest ih =>
      intro acc hLk f hf
      have hLk' : ∀ p fid o, lk p = some (fid, o) →
          (∃ r ∈ (scanStep lk now acc f0).cat.files, r.path = p ∧ r.id = fid) ∧
            (o ≠ none →
              ((scanStep lk now acc f0).cat.members).any (fun m => m.fileId == fid) = true) := by
        intro p fid o hp
        refine ⟨scanStep_hasRow lk now acc f0 p fid (hLk p fid o hp).1, fun ho => ?_⟩
        exact scanStep_hasMember_mono lk now acc f0 fid ((hLk p fid o hp).2 ho)
      rcases List.mem_cons.mp hf with rfl | hf'
      · -- the head file is established by its own step and preserved afterwards
        rcases hlk : lk f.relativePath with _ | ⟨fid, oIdx⟩
        · -- insert branch
          refine ⟨acc.cat.nextFileId, ?_, ?_, ?_⟩
          · have hmem0 : newFileRow f acc.cat.nextFileId now ∈
                (scanStep lk now acc f).cat.files := by
              unfold scanStep
              rw [hlk]
              exact List.mem_append_right _ (List.mem_cons_self _ _)
            have h := scanGo_tracked_clear lk now rest (scanStep lk now acc f)
              acc.cat.nextFileId f.relativePath 0 ⟨_, hmem0, rfl, rfl, rfl, rfl⟩
            obtain ⟨r', hr', e1, e2, _, e4⟩ := h
            exact ⟨r', hr', e2, e1, e4⟩
          · apply scanGo_hasMember_mono lk now rest
            show ((scanStep lk now acc f).cat.members).any
              (fun m => m.fileId == acc.cat.nextFileId) = true
            unfold scanStep
            rw [hlk]
            exact insertMember_has _ _ _
          · apply scanGo_seen_mono lk now rest
            show acc.cat.nextFileId ∈ (scanStep lk now acc f).seen
            unfold scanStep
            rw [hlk]
            exact mem_insertSeen_self _ _
        · -- hit branch
          obtain ⟨r, hr, hp, hid⟩ := (hLk f.relativePath fid oIdx hlk).1
          refine ⟨fid, ?_, ?_, ?_⟩
          · have hclr := scanStep_hit_clear lk now acc f fid f.relativePath r.rating oIdx hlk
              ⟨r, hr, hid, hp, rfl⟩
            obtain ⟨r', hr', e1, e2, e3, e4⟩ := hclr
            exact scanGo_tracked_clear lk now rest (scanStep lk now acc f) fid
              f.relativePath r.rating ⟨r', hr', e1, e2, e3, e4⟩ |>.imp
              (fun x hx => ⟨hx.1, hx.2.2.1, hx.2.1, hx.2.2.2.2⟩)
          · apply scanGo_hasMember_mono lk now rest
            rcases oIdx with _ | oi
            · show ((scanStep lk now acc f).cat.members).any (fun m => m.fileId == fid) = true
              unfold scanStep
              rw [hlk]
              exact insertMember_has _ _ _
            · exact scanStep_hasMember_mono lk now acc f fid
                ((hLk f.relativePath fid (some oi) hlk).2 (by simp))
          · exact scanGo_seen_hit lk now (f :: rest) acc f fid oIdx (List.mem_cons_self _ _) hlk
      · exact ih (scanStep lk now acc f0) hLk' f hf'

theorem scanGo_allhits (lk : String → Option (Nat × Option Int)) (now : Int) :
    ∀ (fs : List ScannedFile) (acc : ScanAcc),
      (∀ f ∈ fs, ∃ fid o, lk f.relativePath = some (fid, some o)) →
      (∀ f ∈ fs, ∀ fid o, lk f.relativePath = some (fid, some o) → fid ∉ acc.seen) →
      (∀ f ∈ fs, ∀ f' ∈ fs, ∀ fid o fid' o', lk f.relativePath = some (fid, some o) →
        lk f'.relativePath = some (fid', some o') → fid = fid' →
        f.relativePath = f'.relativePath) →
      ((fs.map (·.relativePath)).Nodup) →
      (scanGo lk now acc fs).cat.members = acc.cat.members ∧
        (scanGo lk now acc fs).cat.files.length = acc.cat.files.length ∧
        (scanGo lk now acc fs).added = acc.added ∧
        (scanGo lk now acc fs).updated = acc.updated + fs.length ∧
        (scanGo lk now acc fs).seen.length = acc.seen.length + fs.length := by
  intro fs
  induction fs with
  | nil => intro acc _ _ _ _; exact ⟨rfl, rfl, rfl, rfl, rfl⟩
  | cons f0 rest ih =>
      intro acc hall hfresh hinj hrel
      obtain ⟨fid0, o0, hlk0⟩ := hall f0 (List.mem_cons_self _ _)
      have hnotin : fid0 ∉ acc.seen := hfresh f0 (List.mem_cons_self _ _) fid0 o0 hlk0
      have hstep_mem : (scanStep lk now acc f0).cat.members = acc.cat.members := by
        unfold scanStep
        rw [hlk0]
      have hstep_len : (scanStep lk now acc f0).cat.files.length = acc.cat.files.length := by
        unfold scanStep
        rw [hlk0]
        exact List.length_map _ _
      have hstep_added : (scanStep lk now acc f0).added = acc.added := by
        unfold scanStep
        rw [hlk0]
      have hstep_upd : (scanStep lk now acc f0).updated = acc.updated + 1 := by
        unfold scanStep
        rw [hlk0]
      have hstep_seen : (scanStep lk now acc f0).seen = fid0 :: acc.seen := by
        unfold scanStep
        rw [hlk0]
        show insertSeen acc.seen fid0 = fid0 :: acc.seen
        unfold insertSeen
        rw [if_neg hnotin]
      have hrest := ih (scanStep lk now acc f0)
        (fun f hf => hall f (List.mem_cons_of_mem _ hf))
        (by
          intro f hf fid o hlkf
          rw [hstep_seen]
          rw [List.mem_cons]
          rintro (h | h)
          · have heq := hinj f (List.mem_cons_of_mem _ hf) f0 (List.mem_cons_self _ _)
              fid o fid0 o0 hlkf hlk0 h
            have hf0nin := (List.nodup_cons.mp hrel).1
            apply hf0nin
            have hmem : f0.relativePath ∈ rest.map (fun x => x.relativePath) := by
              rw [← heq]
              exact List.mem_map_of_mem _ hf
            exact hmem
          · exact hfresh f (List.mem_cons_of_mem _ hf) fid o hlkf h)
        (fun f hf f' hf' fid o fid' o' h1 h2 h3 =>
          hinj f (List.mem_cons_of_mem _ hf) f' (List.mem_cons_of_mem _ hf') fid o fid' o'
            h1 h2 h3)
        ((List.nodup_cons.mp hrel).2)
      refine ⟨?_, ?_, ?_, ?_, ?_⟩
      · exact hrest.1.trans hstep_mem
      · exact hrest.2.1.trans hstep_len
      · exact hrest.2.2.1.trans hstep_added
      · show (scanGo lk now (scanStep lk now acc f0) rest).updated =
          acc.updated + (f0 :: rest).length
        rw [hrest.2.2.2.1, hstep_upd]
        simp only [List.length_cons]
        omega
      · show (scanGo lk now (scanStep lk now acc f0) rest).seen.length =
          acc.seen.length + (f0 :: rest).length
        rw [hrest.2.2.2.2, hstep_seen]
        simp only [List.length_cons]
        omega

theorem applyMarkMissing_proj {β : Type} (files : List FileRow) (ids : List Nat)
    (π : FileRow → β) (hπ : ∀ r : FileRow, π { r with isMissing := true } = π r) :
    (applyMarkMissing files ids).map π = files.map π := by
  unfold applyMarkMissing
  rw [List.map_map]
  apply List.map_congr_left
  intro r _
  show π (if ids.contains r.id then { r with isMissing := true } else r) = π r
  split
  · exact hπ r
  · rfl

theorem markMissingIds_spec (orig : List FileRow) (seen : List Nat) (x : Nat) :
    x ∈ markMissingIds orig seen ↔ ∃ r ∈ orig, r.id = x ∧ x ∉ seen := by
  unfold markMissingIds
  simp only [List.mem_map, List.mem_filter, Bool.not_eq_true']
  constructor
  · rintro ⟨r, ⟨hr, hc⟩, hid⟩
    refine ⟨r, hr, hid, ?_⟩
    intro hx
    rw [← hid] at hx
    rw [List.contains_eq_any_beq] at hc
    rw [List.any_eq_false] at hc
    exact hc r.id hx (by simp)
  · rintro ⟨r, hr, hid, hx⟩
    refine ⟨r, ⟨hr, ?_⟩, hid⟩
    rw [List.contains_eq_any_beq, List.any_eq_false]
    intro y hy hb
    apply hx
    have : r.id = y := by simpa using hb
    rw [← hid, this]
    exact hy

theorem applyMarkMissing_keep (files : List FileRow) (ids : List Nat) (r : FileRow)
    (hr : r ∈ files) (h : r.id ∉ ids) : r ∈ applyMarkMissing files ids := by
  unfold applyMarkMissing
  have h' : ids.contains r.id = false := by
    rw [List.contains_eq_any_beq, List.any_eq_false]
    intro y hy hb
    apply h
    have he : r.id = y := by simpa using hb
    rw [he]
    exact hy
  have heq : (if ids.contains r.id then { r with isMissing := true } else r) = r := by
    rw [h']
    rfl
  rw [← heq]
  exact List.mem_map_of_mem _ hr

theorem applyMarkMissing_mark (files : List FileRow) (ids : List Nat) (r : FileRow)
    (hr : r ∈ files) (h : r.id ∈ ids) :
    ({ r with isMissing := true } : FileRow) ∈ applyMarkMissing files ids := by
  unfold applyMarkMissing
  have : (if ids.contains r.id then { r with isMissing := true } else r) =
      { r with isMissing := true } := by
    rw [if_pos]
    rw [List.contains_eq_any_beq, List.any_eq_true]
    exact ⟨r.id, h, by simp⟩
  rw [← this]
  exact List.mem_map_of_mem _ hr

theorem applyMarkMissing_origin (files : List FileRow) (ids : List Nat) (r' : FileRow)
    (hr' : r' ∈ applyMarkMissing files ids) :
    ∃ r ∈ files, r' = r ∨ r' = { r with isMissing := true } := by
  unfold applyMarkMissing at hr'
  obtain ⟨r, hr, hg⟩ := List.mem_map.mp hr'
  refine ⟨r, hr, ?_⟩
  by_cases h : ids.contains r.id
  · rw [if_pos h] at hg
    exact Or.inr hg.symm
  · rw [if_neg h] at hg
    exact Or.inl hg.symm

theorem lookup_hLk (c : Catalog) :
    ∀ (p : String) (fid : Nat) (o : Option Int), lookupExisting c p = some (fid, o) →
      (∃ r ∈ c.files, r.path = p ∧ r.id = fid) ∧
        (o ≠ none → c.members.any (fun m => m.fileId == fid) = true) := by
  intro p fid o h
  obtain ⟨r, hr, hp, hid, ho⟩ := lookup_sound c p fid o h
  refine ⟨⟨r, hr, hp, hid⟩, ?_⟩
  intro hne
  rw [ho] at hne
  have hsome : (memberOf c.members fid).isSome := by
    cases hmf : memberOf c.members fid
    · rw [hmf] at hne
      simp at hne
    · rfl
  unfold memberOf at hsome
  rw [List.find?_isSome] at hsome
  obtain ⟨m, hm, hmp⟩ := hsome
  rw [List.any_eq_true]
  exact ⟨m, hm, hmp⟩

theorem hasMember_memberOf (ms : List MemberRow) (fid : Nat)
    (h : ms.any (fun m => m.fileId == fid) = true) :
    ∃ m, memberOf ms fid = some m := by
  unfold memberOf
  rw [List.any_eq_true] at h
  obtain ⟨m, hm, hp⟩ := h
  have hsome : (ms.find? (fun m => m.fileId == fid)).isSome := by
    rw [List.find?_isSome]
    exact ⟨m, hm, hp⟩
  exact Option.isSome_iff_exists.mp hsome

/-- Pass one postcondition of scanLibrary: unique ids and paths survive, the
membership rows stay duplicate free, and every snapshot path now has a non
missing row with a membership. -/
theorem scan_post (c : Catalog) (s : List ScannedFile) (now : Int)
    (hids : (c.files.map (·.id)).Nodup)
    (hbound : ∀ r ∈ c.files, r.id < c.nextFileId)
    (hpaths : (c.files.map (·.path)).Nodup)
    (hmids : (c.members.map (·.fileId)).Nodup)
    (hs : (s.map (·.relativePath)).Nodup) :
    (((scanLibrary c s now).cat.files.map (·.id)).Nodup) ∧
      (((scanLibrary c s now).cat.files.map (·.path)).Nodup) ∧
      (((scanLibrary c s now).cat.members.map (·.fileId)).Nodup) ∧
      (∀ f ∈ s, ∃ fid, (∃ r ∈ (scanLibrary c s now).cat.files,
          r.path = f.relativePath ∧ r.id = fid ∧ r.isMissing = false) ∧
        (((scanLibrary c s now).cat.members.any (fun m => m.fileId == fid)) = true)) := by
  set lk := lookupExisting c with hlk
  set acc0 : ScanAcc := ScanAcc.mk c (maxOrderIndex c.members + 1) 0 0 [] with hacc0
  set A := scanGo lk now acc0 s with hA
  have hfiles : (scanLibrary c s now).cat.files =
      applyMarkMissing A.cat.files (markMissingIds c.files A.seen) := rfl
  have hmembers : (scanLibrary c s now).cat.members = A.cat.members := rfl
  have hnew : ∀ f ∈ s, lk f.relativePath = none →
      f.relativePath ∉ acc0.cat.files.map (·.path) := by
    intro f _ hnone hmem
    obtain ⟨r, hr, hp⟩ := List.mem_map.mp hmem
    obtain ⟨x, hx⟩ := lookup_complete c f.relativePath r hr hp
    rw [hlk] at hnone
    rw [hnone] at hx
    exact Option.noConfusion hx
  refine ⟨?_, ?_, ?_, ?_⟩
  · rw [hfiles, applyMarkMissing_proj A.cat.files (markMissingIds c.files A.seen)
      (fun r => r.id) (fun r => rfl)]
    exact (scanGo_ids lk now s acc0 hids hbound).1
  · rw [hfiles, applyMarkMissing_proj A.cat.files (markMissingIds c.files A.seen)
      (fun r => r.path) (fun r => rfl)]
    exact scanGo_paths lk now s acc0 hpaths hs hnew
  · rw [hmembers]
    exact scanGo_members_nodup lk now s acc0 hmids
  · intro f hf
    obtain ⟨fid, hrow, hmem, hseen⟩ := scanGo_covers lk now s acc0 (lookup_hLk c) f hf
    refine ⟨fid, ?_, by rw [hmembers]; exact hmem⟩
    obtain ⟨r, hr, e1, e2, e3⟩ := hrow
    rw [hfiles]
    refine ⟨r, ?_, e1, e2, e3⟩
    apply applyMarkMissing_keep _ _ _ hr
    intro hin
    obtain ⟨r0, _, hid0, hnin⟩ := (markMissingIds_spec c.files A.seen r.id).mp hin
    rw [e2] at hnin
    exact hnin hseen

/-- Every row whose path the snapshot does not carry ends the scan flagged
missing. -/
theorem scan_absent_missing (c : Catalog) (s : List ScannedFile) (now : Int)
    (hids : (c.files.map (·.id)).Nodup)
    (hbound : ∀ r ∈ c.files, r.id < c.nextFileId) :
    ∀ rr ∈ (scanLibrary c s now).cat.files,
      rr.path ∉ s.map (·.relativePath) → rr.isMissing = true := by
  set lk := lookupExisting c with hlk
  set acc0 : ScanAcc := ScanAcc.mk c (maxOrderIndex c.members + 1) 0 0 [] with hacc0
  set A := scanGo lk now acc0 s with hA
  intro rr hrr habs
  have hfiles : (scanLibrary c s now).cat.files =
      applyMarkMissing A.cat.files (markMissingIds c.files A.seen) := rfl
  rw [hfiles] at hrr
  unfold applyMarkMissing at hrr
  obtain ⟨r', hr', hg⟩ := List.mem_map.mp hrr
  have horigin := scanGo_row_origin lk now s acc0 r' hr'
  rcases horigin with ⟨r0, hr0, e1, e2, _⟩ | ⟨f, hf, he⟩
  · -- an original row: its id was never seen, so it was marked
    have hnotseen : r0.id ∉ A.seen := by
      intro hseen
      rcases scanGo_seen_bound lk now s acc0 r0.id hseen with h | h | h
      · exact absurd h (List.not_mem_nil _)
      · obtain ⟨f, hf, o, ho⟩ := h
        rw [hlk] at ho
        obtain ⟨rs, hrs, hps, hids', _⟩ := lookup_sound c f.relativePath r0.id o ho
        have : rs = r0 := List.inj_on_of_nodup_map hids hrs hr0 hids'
        subst this
        apply habs
        have hpe : rr.path = f.relativePath := by
          have hrrp : rr.path = r'.path := by
            rw [← hg]
            split <;> rfl
          rw [hrrp, e2, ← hps]
        rw [hpe]
        exact List.mem_map_of_mem _ hf
      · exact absurd h (Nat.not_le.mpr (hbound r0 hr0))
    have hin : r'.id ∈ markMissingIds c.files A.seen := by
      rw [markMissingIds_spec]
      exact ⟨r0, hr0, e1.symm, e1 ▸ hnotseen⟩
    have hcont : (markMissingIds c.files A.seen).contains r'.id = true := by
      rw [List.contains_eq_any_beq, List.any_eq_true]
      exact ⟨r'.id, hin, by simp⟩
    rw [if_pos hcont] at hg
    rw [← hg]
  · -- a row inserted by this scan carries a snapshot path
    exfalso
    apply habs
    have hrrp : rr.path = r'.path := by
      rw [← hg]
      split <;> rfl
    rw [hrrp, he]
    exact List.mem_map_of_mem _ hf

/-- After a scan the rows left unflagged are in bijection with the snapshot
paths, so there are exactly as many of them as snapshot entries. -/
theorem scan_nonmissing_count (c : Catalog) (s : List ScannedFile) (now : Int)
    (hids : (c.files.map (·.id)).Nodup)
    (hbound : ∀ r ∈ c.files, r.id < c.nextFileId)
    (hpaths : (c.files.map (·.path)).Nodup)
    (hmids : (c.members.map (·.fileId)).Nodup)
    (hs : (s.map (·.relativePath)).Nodup) :
    ((scanLibrary c s now).cat.files.filter (fun r => !r.isMissing)).length = s.length := by
  have hpost := scan_post c s now hids hbound hpaths hmids hs
  have habsent := scan_absent_missing c s now hids hbound
  set cat1 := (scanLibrary c s now).cat with hcat1
  set N := cat1.files.filter (fun r => !r.isMissing) with hN
  have hNnodup : (N.map (·.path)).Nodup :=
    List.Nodup.sublist (List.Sublist.map _ (List.filter_sublist _)) hpost.2.1
  have hset : (N.map (·.path)).toFinset = (s.map (·.relativePath)).toFinset := by
    ext p
    simp only [List.mem_toFinset, List.mem_map]
    constructor
    · rintro ⟨r, hrN, rfl⟩
      have hmemf := List.mem_filter.mp hrN
      by_contra hnot
      have habs' : r.path ∉ s.map (·.relativePath) := by
        intro hmem
        obtain ⟨f, hf, hfp⟩ := List.mem_map.mp hmem
        exact hnot ⟨f, hf, hfp⟩
      have := habsent r hmemf.1 habs'
      rw [this] at hmemf
      simp at hmemf
    · rintro ⟨f, hf, rfl⟩
      obtain ⟨fid, ⟨r, hrf, e1, _, e3⟩, _⟩ := hpost.2.2.2 f hf
      refine ⟨r, ?_, e1⟩
      rw [hN]
      refine List.mem_filter.mpr ⟨hrf, ?_⟩
      rw [e3]
      rfl
  have h1 : N.length = (N.map (·.path)).length := (List.length_map _ _).symm
  have h2 : (N.map (·.path)).length = (N.map (·.path)).toFinset.card :=
    (List.toFinset_card_of_nodup hNnodup).symm
  have h3 : (s.map (·.relativePath)).toFinset.card = (s.map (·.relativePath)).length :=
    List.toFinset_card_of_nodup hs
  have h4 : (s.map (·.relativePath)).length = s.length := List.length_map _ _
  rw [h1, h2, hset, h3, h4]

/-- C3 counterexample: scanning an empty tree twice from a catalog holding
one stale row reports removed = 1 on the second pass as well, because every
pass recounts rows whose path is absent, so the claimed removed = 0 for
arbitrary catalog states is false. -/
theorem scan_idempotent_counterexample :
    (scanLibrary (scanLibrary staleCat [] 0).cat [] 1).counts.removed = 1 ∧
      (scanLibrary (scanLibrary staleCat [] 0).cat [] 1).counts.removed ≠ 0 := by
  decide

/-- C3 amended: rescanning an unchanged snapshot yields added = 0 and
updated = n, leaves the file row count unchanged, the membership rows
entirely unchanged and duplicate free; removed, however, equals the number
of rows flagged missing (rows whose path is absent from the tree), which is
zero only when every catalog row is present on disk. -/
theorem scan_idempotent_amended (c : Catalog) (s : List ScannedFile) (now now2 : Int)
    (hwf : WF c) (hs : (s.map (·.relativePath)).Nodup) :
    (scanLibrary (scanLibrary c s now).cat s now2).counts.added = 0 ∧
      (scanLibrary (scanLibrary c s now).cat s now2).counts.updated = s.length ∧
      (scanLibrary (scanLibrary c s now).cat s now2).counts.removed =
        (((scanLibrary c s now).cat.files.filter (fun r => r.isMissing)).length : Int) ∧
      (scanLibrary (scanLibrary c s now).cat s now2).cat.files.length =
        (scanLibrary c s now).cat.files.length ∧
      (scanLibrary (scanLibrary c s now).cat s now2).cat.members =
        (scanLibrary c s now).cat.members ∧
      (((scanLibrary (scanLibrary c s now).cat s now2).cat.members.map (·.fileId)).Nodup) := by
  obtain ⟨hids, hpaths, hbound, hmids, hrest⟩ := hwf
  have hpost := scan_post c s now hids hbound hpaths hmids hs
  have hcount := scan_nonmissing_count c s now hids hbound hpaths hmids hs
  set cat1 := (scanLibrary c s now).cat with hcat1
  set lk2 := lookupExisting cat1 with hlk2
  set acc02 : ScanAcc := ScanAcc.mk cat1 (maxOrderIndex cat1.members + 1) 0 0 [] with hacc02
  set A2 := scanGo lk2 now2 acc02 s with hA2
  have hall : ∀ f ∈ s, ∃ fid o, lk2 f.relativePath = some (fid, some o) := by
    intro f hf
    obtain ⟨fid, ⟨r, hrf, e1, e2, _⟩, hmem⟩ := hpost.2.2.2 f hf
    have hlu := lookup_unique cat1 f.relativePath r hpost.2.1 hrf e1
    obtain ⟨m, hm⟩ := hasMember_memberOf cat1.members fid hmem
    refine ⟨r.id, m.orderIndex, ?_⟩
    rw [hlk2, hlu, e2, hm]
    rfl
  have hfresh : ∀ f ∈ s, ∀ fid o, lk2 f.relativePath = some (fid, some o) →
      fid ∉ acc02.seen := by
    intro f _ fid o _
    simp [hacc02]
  have hinj : ∀ f ∈ s, ∀ f' ∈ s, ∀ fid o fid' o', lk2 f.relativePath = some (fid, some o) →
      lk2 f'.relativePath = some (fid', some o') → fid = fid' →
      f.relativePath = f'.relativePath := by
    intro f _ f' _ fid o fid' o' h1 h2 h3
    obtain ⟨r1, hr1, hp1, hi1, _⟩ := lookup_sound cat1 _ _ _ h1
    obtain ⟨r2, hr2, hp2, hi2, _⟩ := lookup_sound cat1 _ _ _ h2
    have : r1 = r2 := List.inj_on_of_nodup_map hpost.1 hr1 hr2 (by rw [hi1, hi2, h3])
    rw [← hp1, ← hp2, this]
  have hAH := scanGo_allhits lk2 now2 s acc02 hall hfresh hinj hs
  have hsplit : (cat1.files.filter (fun r => r.isMissing)).length +
      (cat1.files.filter (fun r => !r.isMissing)).length = cat1.files.length := by
    have hp := List.filter_append_perm (fun r : FileRow => r.isMissing) cat1.files
    have := hp.length_eq
    rw [List.length_append] at this
    exact this
  refine ⟨?_, ?_, ?_, ?_, ?_, ?_⟩
  · show A2.added = 0
    rw [hAH.2.2.1]
  · show A2.updated = s.length
    rw [hAH.2.2.2.1]
    simp [hacc02]
  · show (cat1.files.length : Int) - (A2.seen.length : Int) = _
    rw [hAH.2.2.2.2]
    simp only [hacc02, List.length_nil, Nat.zero_add]
    omega
  · show (applyMarkMissing A2.cat.files (markMissingIds cat1.files A2.seen)).length =
      cat1.files.length
    unfold applyMarkMissing
    rw [List.length_map]
    exact hAH.2.1
  · show A2.cat.members = cat1.members
    exact hAH.1
  · show ((A2.cat.members).map (·.fileId)).Nodup
    rw [hAH.1]
    exact hpost.2.2.1

/-- C5: a row whose path has left the tree is flagged missing with every
other column intact and its tag associations untouched; it appears in no
playlist query of any filter or sort; rescanning a snapshot that carries the
path again yields a non missing row with the same id and rating. -/
theorem missing_not_deleted (c : Catalog) (s s' : List ScannedFile) (now now2 : Int)
    (hwf : WF c) (hs : (s.map (·.relativePath)).Nodup)
    (r : FileRow) (hr : r ∈ c.files) (habs : r.path ∉ s.map (·.relativePath))
    (hback : r.path ∈ s'.map (·.relativePath)) :
    (({ r with isMissing := true } : FileRow) ∈ (scanLibrary c s now).cat.files) ∧
      ((scanLibrary c s now).cat.fileTags = c.fileTags ∧
        (scanLibrary c s now).cat.tags = c.tags) ∧
      (∀ (p : PlaylistRequest), ∀ it ∈ (getPlaylist (scanLibrary c s now).cat p).items,
        it.id ≠ r.id) ∧
      (∃ r2 ∈ (scanLibrary (scanLibrary c s now).cat s' now2).cat.files,
        r2.id = r.id ∧ r2.path = r.path ∧ r2.rating = r.rating ∧ r2.isMissing = false) := by
  obtain ⟨hids, hpaths, hbound, hmids, hrest⟩ := hwf
  have hpost := scan_post c s now hids hbound hpaths hmids hs
  set lk := lookupExisting c with hlk
  set acc0 : ScanAcc := ScanAcc.mk c (maxOrderIndex c.members + 1) 0 0 [] with hacc0
  set A := scanGo lk now acc0 s with hA
  set cat1 := (scanLibrary c s now).cat with hcat1
  have hno : ∀ f ∈ s, ∀ fid o, lk f.relativePath = some (fid, o) → fid ≠ r.id := by
    intro f hf fid o hlkf heq
    obtain ⟨rs, hrs, hps, his, _⟩ := lookup_sound c f.relativePath fid o hlkf
    have : rs = r := List.inj_on_of_nodup_map hids hrs hr (by rw [his, heq])
    subst this
    apply habs
    rw [hps]
    exact List.mem_map_of_mem _ hf
  have huntouched : r ∈ A.cat.files :=
    scanGo_untouched lk now s acc0 r hr hno
  have hnotseen : r.id ∉ A.seen := by
    intro hseen
    rcases scanGo_seen_bound lk now s acc0 r.id hseen with h | h | h
    · exact absurd h (List.not_mem_nil _)
    · obtain ⟨f, hf, o, ho⟩ := h
      exact hno f hf r.id o ho rfl
    · exact absurd h (Nat.not_le.mpr (hbound r hr))
  have hmark : ({ r with isMissing := true } : FileRow) ∈ cat1.files := by
    show ({ r with isMissing := true } : FileRow) ∈
      applyMarkMissing A.cat.files (markMissingIds c.files A.seen)
    apply applyMarkMissing_mark _ _ _ huntouched
    rw [markMissingIds_spec]
    exact ⟨r, hr, rfl, hnotseen⟩
  have htags : cat1.fileTags = c.fileTags ∧ cat1.tags = c.tags := by
    have h := scanGo_tags lk now s acc0
    exact ⟨h.2.1, h.1⟩
  refine ⟨hmark, htags, ?_, ?_⟩
  · -- the missing row is excluded from every playlist query
    intro p it hit heq
    have hit' : it ∈ sortedRows cat1 p := by
      have hitems : (getPlaylist cat1 p).items =
          (match effLimit p.limit with
          | none => sortedRows cat1 p
          | some l => ((sortedRows cat1 p).drop (effOffset p.offset)).take l.toNat) := rfl
      rw [hitems] at hit
      cases heff : effLimit p.limit with
      | none => rw [heff] at hit; exact hit
      | some l =>
          rw [heff] at hit
          exact List.mem_of_mem_drop (List.mem_of_mem_take hit)
    unfold sortedRows at hit'
    rw [List.mem_insertionSort] at hit'
    obtain ⟨row, hrow, hrowq⟩ := List.mem_map.mp hit'
    have hrowf := List.mem_filter.mp hrow
    have hrowid : row.id = r.id := by
      rw [← heq, ← hrowq]
      rfl
    have hrownm : row.isMissing = false := by
      have := hrowf.2
      simp only [Bool.and_eq_true, decide_eq_true_eq] at this
      exact this.1.1
    have : row = { r with isMissing := true } :=
      List.inj_on_of_nodup_map hpost.1 hrowf.1 hmark hrowid
    rw [this] at hrownm
    simp at hrownm
  · -- the path coming back clears the flag and keeps id and rating
    obtain ⟨f', hf', hfp'⟩ := List.mem_map.mp hback
    have hlu2 := lookup_unique cat1 r.path ({ r with isMissing := true }) hpost.2.1 hmark rfl
    set lk2 := lookupExisting cat1 with hlk2
    set acc02 : ScanAcc := ScanAcc.mk cat1 (maxOrderIndex cat1.members + 1) 0 0 [] with hacc02
    set A2 := scanGo lk2 now2 acc02 s' with hA2
    have hq0 : ∃ rr ∈ acc02.cat.files, rr.id = r.id ∧ rr.path = r.path ∧ rr.rating = r.rating :=
      ⟨{ r with isMissing := true }, hmark, rfl, rfl, rfl⟩
    have hhit : ∃ f ∈ s', ∃ o, lk2 f.relativePath = some (r.id, o) := by
      refine ⟨f', hf', (memberOf cat1.members r.id).map (·.orderIndex), ?_⟩
      have hfp2 : f'.relativePath = r.path := hfp'
      rw [hfp2]
      exact hlu2
    have hclr := scanGo_hit_clears lk2 now2 s' acc02 r.id r.path r.rating hq0 hhit
    obtain ⟨r2, hr2, e1, e2, e3, e4⟩ := hclr
    have hseen2 : r.id ∈ A2.seen := by
      obtain ⟨f, hf, o, ho⟩ := hhit
      exact scanGo_seen_hit lk2 now2 s' acc02 f r.id o hf ho
    refine ⟨r2, ?_, e1, e2, e3, e4⟩
    show r2 ∈ applyMarkMissing A2.cat.files (markMissingIds cat1.files A2.seen)
    apply applyMarkMissing_keep _ _ _ hr2
    intro hin
    obtain ⟨r0, _, hid0, hnin⟩ := (markMissingIds_spec cat1.files A2.seen r2.id).mp hin
    rw [e1] at hnin
    exact hnin hseen2

/-! ### Concrete instantiations of the theorems with hypotheses -/

theorem and_tag_filter_witness :
    (∃ it ∈ (getPlaylist sampleCat
        ⟨SortMode.playlist, 0, some ["a", "b"], none, none, none⟩).items, it.id = 1) ↔
      ((false = false) ∧ ∀ t ∈ (["a", "b"] : List String), t ∈ fileTagNames sampleCat 1) :=
  and_tag_filter sampleCat SortMode.playlist none none ["a", "b"] (by decide) (by decide)
    (FileRow.mk 1 "a.mp4" "a.mp4" ".mp4" 0 10 5 3 0 0 none 0 false) (by decide)

theorem no_limit_ignores_offset_witness :
    (getPlaylist sampleCat ⟨SortMode.playlist, 0, none, some (-3), some 5, none⟩).items =
        (getPlaylist sampleCat ⟨SortMode.playlist, 0, none, some (-3), some 0, none⟩).items ∧
      (getPlaylist sampleCat ⟨SortMode.playlist, 0, none, some (-3), some 5, none⟩).items =
        sortedRows sampleCat ⟨SortMode.playlist, 0, none, some (-3), some 5, none⟩ ∧
      (getPlaylist sampleCat ⟨SortMode.playlist, 0, none, some (-3), some 5, none⟩).items.length =
        (getPlaylist sampleCat ⟨SortMode.playlist, 0, none, some (-3), some 5, none⟩).total :=
  no_limit_ignores_offset sampleCat ⟨SortMode.playlist, 0, none, some (-3), some 5, none⟩
    (by intro v hv; simp at hv; omega)

theorem seed_normalization_witness :
    getPlaylist sampleCat ⟨SortMode.random, 0, none, none, none, some (-7)⟩ =
        getPlaylist sampleCat ⟨SortMode.random, 0, none, none, none, some 7⟩ ∧
      effSeed none = 1 ∧
      effSeed (some (1 / 2 : ℚ)) = 1 ∧
      effSeed (some (-3 : ℚ)) =
        (if (jsTrunc (-3 : ℚ)).natAbs = 0 then 1 else ((jsTrunc (-3 : ℚ)).natAbs : Int)) ∧
      1 ≤ effSeed (some (-7 : ℚ)) :=
  seed_normalization sampleCat SortMode.random 0 none none none (some (-7)) (some 7)
    (-3) (1 / 2) (by decide) (by rw [abs_lt]; constructor <;> norm_num)

theorem mutation_unknown_id_witness :
    setRating sampleCat 99 4 = sampleCat ∧ setDuration sampleCat 99 5 = sampleCat ∧
      setLastPlayed sampleCat 99 6 = sampleCat ∧
      (toggleTag sampleCat 99 "zz").threw = true ∧
      (toggleTag sampleCat 99 "zz").cat.files = sampleCat.files ∧
      (toggleTag sampleCat 99 "zz").cat.members = sampleCat.members ∧
      (toggleTag sampleCat 99 "zz").cat.fileTags = sampleCat.fileTags :=
  mutation_unknown_id sampleCat 99 4 5 6 "zz" (by decide) (by decide) (by decide)

theorem reorder_density_witness :
    ((getPlaylist (saveOrder denseCat [4, 2, 3])
        ⟨SortMode.playlist, 0, none, none, none, none⟩).items.map (·.id)) = [4, 2, 3] ∧
      (∀ m ∈ (saveOrder denseCat [4, 2, 3]).members,
        (m.fileId = 4 → m.orderIndex = 0) ∧ (m.fileId = 2 → m.orderIndex = 1) ∧
          (m.fileId = 3 → m.orderIndex = 2)) :=
  reorder_density denseCat 4 2 3 (by decide) (by decide) (by decide) (by decide) (by decide)

theorem scan_idempotent_witness :
    (scanLibrary (scanLibrary sampleCat sampleSnapshot 0).cat sampleSnapshot 1).counts.added
        = 0 ∧
      (scanLibrary (scanLibrary sampleCat sampleSnapshot 0).cat
        sampleSnapshot 1).counts.updated = sampleSnapshot.length ∧
      (scanLibrary (scanLibrary sampleCat sampleSnapshot 0).cat
        sampleSnapshot 1).counts.removed =
        (((scanLibrary sampleCat sampleSnapshot 0).cat.files.filter
          (fun r => r.isMissing)).length : Int) ∧
      (scanLibrary (scanLibrary sampleCat sampleSnapshot 0).cat
        sampleSnapshot 1).cat.files.length =
        (scanLibrary sampleCat sampleSnapshot 0).cat.files.length ∧
      (scanLibrary (scanLibrary sampleCat sampleSnapshot 0).cat sampleSnapshot 1).cat.members =
        (scanLibrary sampleCat sampleSnapshot 0).cat.members ∧
      (((scanLibrary (scanLibrary sampleCat sampleSnapshot 0).cat
        sampleSnapshot 1).cat.members.map (·.fileId)).Nodup) :=
  scan_idempotent_amended sampleCat sampleSnapshot 0 1 (by decide) (by decide)

theorem missing_not_deleted_witness :
    (({ id := 4, path := "gone.mp4", name := "gone.mp4", ext := ".mp4", durationMs := 0,
        size := 13, mtime := 8, createdMs := 6, rating := 1, addedOn := 0, lastPlayed := none,
        playCount := 0, isMissing := true } : FileRow) ∈
      (scanLibrary sampleCat sampleSnapshot 0).cat.files) ∧
      ((scanLibrary sampleCat sampleSnapshot 0).cat.fileTags = sampleCat.fileTags ∧
        (scanLibrary sampleCat sampleSnapshot 0).cat.tags = sampleCat.tags) ∧
      (∀ (p : PlaylistRequest),
        ∀ it ∈ (getPlaylist (scanLibrary sampleCat sampleSnapshot 0).cat p).items,
          it.id ≠ 4) ∧
      (∃ r2 ∈ (scanLibrary (scanLibrary sampleCat sampleSnapshot 0).cat
          [ScannedFile.mk "gone.mp4" "gone.mp4" ".mp4" 13 8 6] 1).cat.files,
        r2.id = 4 ∧ r2.path = "gone.mp4" ∧ r2.rating = 1 ∧ r2.isMissing = false) :=
  missing_not_deleted sampleCat sampleSnapshot
    [ScannedFile.mk "gone.mp4" "gone.mp4" ".mp4" 13 8 6] 0 1 (by decide) (by decide)
    (FileRow.mk 4 "gone.mp4" "gone.mp4" ".mp4" 0 13 8 6 1 0 none 0 true)
    (by decide) (by decide) (by decide)

end Plyer
